import Mathlib

/-!
# Verification of the Rubik's cube state-inference backend

Shallow embedding of the algorithmic core of the repository:

* `validate_and_fix_cube_state` (backend/solver.py): the greedy global
  redistribution that pushes every color count toward exactly nine.
* `fix_color_distribution` (backend/color_recognition.py): the per-face
  two-pass skew repair.
* The sticker classifier of `recognize_face_colors`
  (backend/color_recognition.py): range test plus score maximisation over the
  fixed `COLOR_RANGES` table, with the `analyze_color_fallback` decision tree.
* The orchestration loop of `solve_cube_from_images` (backend/solver.py).

Strings are embedded as `List Char`; the Python count dictionaries are
embedded as total functions `Char → Nat` (absent keys read as 0, matching
`dict.get(c, 0)` and the explicit zero-fill in the source); image decoding
and grid sampling (owned by cv2, outside the repository's algorithmic core)
are abstracted as an oracle parameter `decode`.  The classifier's arithmetic
is embedded over `ℚ`, the exact field containing all the table constants and
sample values.
-/

namespace RubiksBackend

/-- The fixed six color symbols in source order (`expected_colors` in
solver.py and `target_colors` in color_recognition.py). -/
def expectedColors : List Char := ['U', 'R', 'F', 'D', 'L', 'B']

/-- Pointwise update of a count table, mirroring `d[a] = v` on a Python
dict viewed as a total function with default 0. -/
def upd (f : Char → Nat) (a : Char) (v : Nat) : Char → Nat :=
  fun c => if c = a then v else f c

theorem upd_self (f : Char → Nat) (a : Char) (v : Nat) : upd f a v a = v := by
  simp [upd]

theorem upd_other (f : Char → Nat) (a : Char) (v : Nat) {c : Char} (h : c ≠ a) :
    upd f a v c = f c := by
  simp [upd, h]

/-! ## GlobalStateRepair: `validate_and_fix_cube_state` (solver.py 55-127) -/

/-- The `needs_fixing` test of solver.py (line 74): some value of the count
dict differs from 9, the dict holding every character present in the input
plus the six expected colors (zero-filled, lines 68-71). -/
def needsFixing (s : List Char) : Bool :=
  expectedColors.any (fun c => s.count c ≠ 9) || s.any (fun c => s.count c ≠ 9)

/-- The `current_count > 9` branch of the repair loop (solver.py 84-96):
scan the positions; at each position still holding the target while excess
remains, retarget it to the first expected color counted below nine. -/
def fixOver (t : Char) : List Char → (Char → Nat) → Nat → List Char × (Char → Nat)
  | [], cnt, _ => ([], cnt)
  | e :: rest, cnt, ex =>
    if e = t ∧ 0 < ex then
      match expectedColors.find? (fun r => decide (cnt r < 9)) with
      | some r =>
        let cnt1 := upd cnt t (cnt t - 1)
        let cnt2 := upd cnt1 r (cnt1 r + 1)
        let p := fixOver t rest cnt2 (ex - 1)
        (r :: p.1, p.2)
      | none =>
        let p := fixOver t rest cnt ex
        (e :: p.1, p.2)
    else
      let p := fixOver t rest cnt ex
      (e :: p.1, p.2)

/-- The `current_count < 9` branch of the repair loop (solver.py 98-112):
scan the positions while some are still needed; a position holding the first
expected color counted above nine is retargeted to the target color. -/
def fixUnder (t : Char) : List Char → (Char → Nat) → Nat → List Char × (Char → Nat)
  | [], cnt, _ => ([], cnt)
  | e :: rest, cnt, needed =>
    if needed = 0 then (e :: rest, cnt)
    else
      match expectedColors.find? (fun x => decide (9 < cnt x) && (e == x)) with
      | some _ =>
        let cnt1 := upd cnt e (cnt e - 1)
        let cnt2 := upd cnt1 t (cnt1 t + 1)
        let p := fixUnder t rest cnt2 (needed - 1)
        (t :: p.1, p.2)
      | none =>
        let p := fixUnder t rest cnt needed
        (e :: p.1, p.2)

/-- The outer `for target_color in expected_colors` loop of solver.py 81-112. -/
def fixLoop : List Char → List Char → (Char → Nat) → List Char × (Char → Nat)
  | [], lst, cnt => (lst, cnt)
  | t :: ts, lst, cnt =>
    let current := cnt t
    if 9 < current then
      let p := fixOver t lst cnt (current - 9)
      fixLoop ts p.1 p.2
    else if current < 9 then
      let p := fixUnder t lst cnt (9 - current)
      fixLoop ts p.1 p.2
    else fixLoop ts lst cnt

/-- `validate_and_fix_cube_state` (solver.py 55-127): raises `ValueError` when
the input length differs from 54 (modelled as `Except.error`), otherwise
redistributes counts when `needs_fixing` holds and returns the state. -/
def validate_and_fix_cube_state (s : List Char) : Except (List Char) (List Char) :=
  if s.length ≠ 54 then
    Except.error (("Cube state must be 54 characters, got ".toList) ++ (toString s.length).toList)
  else if needsFixing s then
    Except.ok (fixLoop expectedColors s (fun c => s.count c)).1
  else Except.ok s

/-! ### Length preservation (hypothesis-free) -/

theorem fixOver_length (t : Char) :
    ∀ (rem : List Char) (cnt : Char → Nat) (ex : Nat),
      (fixOver t rem cnt ex).1.length = rem.length := by
  intro rem
  induction rem with
  | nil => intro cnt ex; rfl
  | cons e rest ih =>
    intro cnt ex
    by_cases h : e = t ∧ 0 < ex
    · rw [fixOver, if_pos h]
      rcases hf : expectedColors.find? (fun r => decide (cnt r < 9)) with _ | r <;>
        simp [hf, ih]
    · rw [fixOver, if_neg h]
      simp [ih]

theorem fixUnder_length (t : Char) :
    ∀ (rem : List Char) (cnt : Char → Nat) (needed : Nat),
      (fixUnder t rem cnt needed).1.length = rem.length := by
  intro rem
  induction rem with
  | nil => intro cnt needed; rfl
  | cons e rest ih =>
    intro cnt needed
    by_cases h : needed = 0
    · rw [fixUnder, if_pos h]
    · rw [fixUnder, if_neg h]
      rcases hf : expectedColors.find? (fun x => decide (9 < cnt x) && (e == x)) with _ | x <;>
        simp [hf, ih]

theorem fixLoop_length :
    ∀ (ts lst : List Char) (cnt : Char → Nat),
      (fixLoop ts lst cnt).1.length = lst.length := by
  intro ts
  induction ts with
  | nil => intro lst cnt; rfl
  | cons t ts ih =>
    intro lst cnt
    rw [fixLoop]
    by_cases h1 : 9 < cnt t
    · simp only [if_pos h1]
      rw [ih, fixOver_length]
    · simp only [if_neg h1]
      by_cases h2 : cnt t < 9
      · simp only [if_pos h2]
        rw [ih, fixUnder_length]
      · simp only [if_neg h2]
        exact ih lst cnt

/-! ### Generic counting lemmas -/

/-- Sum of the count table over the six expected colors. -/
def sumSix (cnt : Char → Nat) : Nat := (expectedColors.map cnt).sum

theorem mapCongrL {α β : Type} (l : List α) (f g : α → β)
    (h : ∀ x ∈ l, f x = g x) : l.map f = l.map g := by
  induction l with
  | nil => rfl
  | cons a rest ih =>
    simp only [List.map_cons]
    rw [h a (by simp), ih (fun x hx => h x (by simp [hx]))]

theorem mem_le_sum (l : List Char) (f : Char → Nat) {a : Char} (ha : a ∈ l) :
    f a ≤ (l.map f).sum := by
  induction l with
  | nil => cases ha
  | cons b rest ih =>
    rcases List.mem_cons.mp ha with h | h
    · subst h; simp
    · simp only [List.map_cons, List.sum_cons]
      have := ih h
      omega

theorem pair_le_sum (l : List Char) (f : Char → Nat) {a b : Char}
    (hl : l.Nodup) (ha : a ∈ l) (hb : b ∈ l) (hab : a ≠ b) :
    f a + f b ≤ (l.map f).sum := by
  induction l with
  | nil => cases ha
  | cons c rest ih =>
    rcases List.nodup_cons.mp hl with ⟨hc, hrest⟩
    simp only [List.map_cons, List.sum_cons]
    rcases List.mem_cons.mp ha with h1 | h1
    · subst h1
      have hb' : b ∈ rest := by
        rcases List.mem_cons.mp hb with h2 | h2
        · exact absurd h2.symm hab
        · exact h2
      have := mem_le_sum rest f hb'
      omega
    · rcases List.mem_cons.mp hb with h2 | h2
      · subst h2
        have := mem_le_sum rest f h1
        omega
      · have := ih hrest h1 h2
        omega

theorem sum_map_upd (l : List Char) (f : Char → Nat) {a : Char} (v : Nat)
    (hl : l.Nodup) (ha : a ∈ l) :
    (l.map (upd f a v)).sum + f a = (l.map f).sum + v := by
  induction l with
  | nil => cases ha
  | cons b rest ih =>
    rcases List.nodup_cons.mp hl with ⟨hb, hrest⟩
    simp only [List.map_cons, List.sum_cons]
    rcases List.mem_cons.mp ha with h1 | h1
    · subst h1
      rw [upd_self]
      have : rest.map (upd f a v) = rest.map f := by
        apply mapCongrL
        intro x hx
        exact upd_other f a v (fun hxa => hb (hxa ▸ hx))
      rw [this]; omega
    · have hba : b ≠ a := fun h => hb (h ▸ h1)
      rw [upd_other f a v hba]
      have := ih hrest h1
      omega

theorem all_ge_sum (l : List Char) (f : Char → Nat) (k : Nat)
    (h : ∀ x ∈ l, k ≤ f x) : k * l.length ≤ (l.map f).sum := by
  induction l with
  | nil => simp
  | cons b rest ih =>
    simp only [List.map_cons, List.sum_cons, List.length_cons]
    have h1 := h b (by simp)
    have h2 := ih (fun x hx => h x (by simp [hx]))
    have : k * (rest.length + 1) = k * rest.length + k := by ring
    omega

theorem sum_le_of_all_le (l : List Char) (f : Char → Nat) (k : Nat)
    (h : ∀ x ∈ l, f x ≤ k) : (l.map f).sum ≤ k * l.length := by
  induction l with
  | nil => simp
  | cons b rest ih =>
    simp only [List.map_cons, List.sum_cons, List.length_cons]
    have h1 := h b (by simp)
    have h2 := ih (fun x hx => h x (by simp [hx]))
    have : k * (rest.length + 1) = k * rest.length + k := by ring
    omega

theorem mem_lower_sum (l : List Char) (f : Char → Nat) (k : Nat) {t : Char}
    (hl : l.Nodup) (ht : t ∈ l) (h : ∀ x ∈ l, k ≤ f x) :
    f t + k * (l.length - 1) ≤ (l.map f).sum := by
  induction l with
  | nil => cases ht
  | cons b rest ih =>
    rcases List.nodup_cons.mp hl with ⟨hb, hrest⟩
    simp only [List.map_cons, List.sum_cons, List.length_cons]
    rcases List.mem_cons.mp ht with h1 | h1
    · subst h1
      have := all_ge_sum rest f k (fun x hx => h x (by simp [hx]))
      simp only [Nat.add_sub_cancel]
      omega
    · have hlen : 1 ≤ rest.length := by
        cases rest with
        | nil => cases h1
        | cons _ _ => simp
      have := ih hrest h1 (fun x hx => h x (by simp [hx]))
      have hbk := h b (by simp)
      have : k * (rest.length + 1 - 1) = k * (rest.length - 1) + k := by
        rw [Nat.add_sub_cancel]
        cases rest with
        | nil => simp at hlen
        | cons _ _ =>
          simp only [List.length_cons, Nat.add_sub_cancel]
          ring
      omega

theorem mem_upper_sum (l : List Char) (f : Char → Nat) (k : Nat) {t : Char}
    (hl : l.Nodup) (ht : t ∈ l) (h : ∀ x ∈ l, f x ≤ k) :
    (l.map f).sum ≤ f t + k * (l.length - 1) := by
  induction l with
  | nil => cases ht
  | cons b rest ih =>
    rcases List.nodup_cons.mp hl with ⟨hb, hrest⟩
    simp only [List.map_cons, List.sum_cons, List.length_cons]
    rcases List.mem_cons.mp ht with h1 | h1
    · subst h1
      have := sum_le_of_all_le rest f k (fun x hx => h x (by simp [hx]))
      simp only [Nat.add_sub_cancel]
      omega
    · have hlen : 1 ≤ rest.length := by
        cases rest with
        | nil => cases h1
        | cons _ _ => simp
      have := ih hrest h1 (fun x hx => h x (by simp [hx]))
      have hbk := h b (by simp)
      have : k * (rest.length + 1 - 1) = k * (rest.length - 1) + k := by
        rw [Nat.add_sub_cancel]
        cases rest with
        | nil => simp at hlen
        | cons _ _ =>
          simp only [List.length_cons, Nat.add_sub_cancel]
          ring
      omega

theorem sum_add_distrib (l : List Char) (f g : Char → Nat) :
    (l.map (fun c => f c + g c)).sum = (l.map f).sum + (l.map g).sum := by
  induction l with
  | nil => rfl
  | cons b rest ih =>
    simp only [List.map_cons, List.sum_cons, ih]
    omega

theorem sum_indicator (l : List Char) {a : Char} (hl : l.Nodup) (ha : a ∈ l) :
    (l.map (fun c => if a = c then 1 else 0)).sum = 1 := by
  induction l with
  | nil => cases ha
  | cons b rest ih =>
    rcases List.nodup_cons.mp hl with ⟨hb, hrest⟩
    simp only [List.map_cons, List.sum_cons]
    rcases List.mem_cons.mp ha with h1 | h1
    · subst h1
      simp only [if_pos rfl]
      have : rest.map (fun c => if a = c then 1 else 0) = rest.map (fun _ => 0) := by
        apply mapCongrL
        intro x hx
        simp only [ite_eq_right_iff]
        intro hax; exact absurd (hax ▸ hx) hb
      rw [this]; simp
    · have hba : a ≠ b := fun h => hb (h ▸ h1)
      rw [if_neg hba, ih hrest h1]

theorem sum_counts (s : List Char) (l : List Char) (hl : l.Nodup)
    (h : ∀ e ∈ s, e ∈ l) : (l.map (fun c => s.count c)).sum = s.length := by
  induction s with
  | nil => simp
  | cons a rest ih =>
    have hmap : l.map (fun c => (a :: rest).count c) =
        l.map (fun c => rest.count c + if a = c then 1 else 0) := by
      apply mapCongrL
      intro x _
      rw [List.count_cons]
      simp [beq_iff_eq]
    rw [hmap, sum_add_distrib, ih (fun e he => h e (by simp [he])),
      sum_indicator l hl (h a (by simp))]
    simp

theorem expectedColors_nodup : expectedColors.Nodup := by decide

theorem sumSix_of_allsix (s : List Char) (h : ∀ e ∈ s, e ∈ expectedColors) :
    sumSix (fun c => s.count c) = s.length :=
  sum_counts s expectedColors expectedColors_nodup h

theorem count_zero_of_not_mem {s : List Char} {c : Char} (h : c ∉ s) :
    s.count c = 0 :=
  List.count_eq_zero.mpr h

theorem mem_of_count_pos {s : List Char} {c : Char} (h : 0 < s.count c) :
    c ∈ s :=
  List.count_pos_iff.mp h

theorem two_mem_one_lt_length {α : Type} {l : List α} {a b : α}
    (ha : a ∈ l) (hb : b ∈ l) (hab : a ≠ b) : 1 < l.length := by
  cases l with
  | nil => cases ha
  | cons x rest =>
    cases rest with
    | nil =>
      exfalso
      rcases List.mem_cons.mp ha with h1 | h1
      · rcases List.mem_cons.mp hb with h2 | h2
        · exact hab (h1.trans h2.symm)
        · cases h2
      · cases h1
    | cons y rest2 => simp

theorem exists_other_mem {l : List Char} {a : Char} (hl : l.Nodup)
    (hlen : 1 < l.length) : ∃ k ∈ l, k ≠ a := by
  cases l with
  | nil => simp at hlen
  | cons x rest =>
    cases rest with
    | nil => simp at hlen
    | cons y rest2 =>
      have hxy : x ≠ y := by
        rcases List.nodup_cons.mp hl with ⟨hx1, _⟩
        exact fun h => hx1 (by simp [h])
      by_cases hx : x = a
      · exact ⟨y, by simp, fun h => hxy (by rw [hx, h])⟩
      · exact ⟨x, by simp, hx⟩

theorem count_cons_char (a b : Char) (l : List Char) :
    (b :: l).count a = l.count a + if a = b then 1 else 0 := by
  rw [List.count_cons]
  by_cases h : a = b
  · simp [h]
  · simp [h, Ne.symm h]

/-- Invariant analysis of the `count > 9` branch: the excess is fully
absorbed (the target ends at exactly nine), the six-color total is
preserved, other colors only grow and never beyond nine (unless they
already were), and the count table stays synchronised with the list. -/
theorem fixOver_spec (t : Char) (ht : t ∈ expectedColors) :
    ∀ (rem : List Char) (cnt : Char → Nat) (ex : Nat),
      sumSix cnt = 54 →
      cnt t = 9 + ex →
      ex ≤ rem.count t →
      (fixOver t rem cnt ex).2 t = 9 ∧
      sumSix (fixOver t rem cnt ex).2 = 54 ∧
      (∀ c, c ≠ t → cnt c ≤ (fixOver t rem cnt ex).2 c ∧
        (fixOver t rem cnt ex).2 c ≤ max (cnt c) 9) ∧
      (∀ c, (fixOver t rem cnt ex).2 c + rem.count c
        = cnt c + (fixOver t rem cnt ex).1.count c) ∧
      (∀ e ∈ (fixOver t rem cnt ex).1, e ∈ expectedColors ∨ e ∈ rem) := by
  intro rem
  induction rem with
  | nil =>
    intro cnt ex hsum hcnt hex
    have hex0 : ex = 0 := by simpa using hex
    subst hex0
    refine ⟨by simpa using hcnt, hsum, ?_, ?_, ?_⟩
    · intro c _; constructor <;> simp [fixOver]
    · intro c; simp [fixOver]
    · intro e he; simp [fixOver] at he
  | cons e rest ih =>
    intro cnt ex hsum hcnt hex
    by_cases hcond : e = t ∧ 0 < ex
    · obtain ⟨het, hexpos⟩ := hcond
      -- the replacement search cannot fail while the target count exceeds nine
      rcases hf : expectedColors.find? (fun r => decide (cnt r < 9)) with _ | r
      · exfalso
        have hall : ∀ x ∈ expectedColors, 9 ≤ cnt x := by
          intro x hx
          have := List.find?_eq_none.mp hf x hx
          simp at this
          omega
        have hlow := mem_lower_sum expectedColors cnt 9 expectedColors_nodup ht hall
        have hlen : expectedColors.length = 6 := by decide
        rw [hlen] at hlow
        unfold sumSix at hsum
        omega
      · have hr6 : r ∈ expectedColors := List.mem_of_find?_eq_some hf
        have hrlt : cnt r < 9 := by
          have := List.find?_some hf
          simpa using this
        have hrt : r ≠ t := by
          intro h; rw [h] at hrlt; omega
        set cnt2 := upd (upd cnt t (cnt t - 1)) r ((upd cnt t (cnt t - 1)) r + 1) with hcnt2
        have hstep1 : (fixOver t (e :: rest) cnt ex).1 =
            r :: (fixOver t rest cnt2 (ex - 1)).1 := by
          rw [fixOver, if_pos ⟨het, hexpos⟩]
          simp [hf, hcnt2]
        have hstep2 : (fixOver t (e :: rest) cnt ex).2 =
            (fixOver t rest cnt2 (ex - 1)).2 := by
          rw [fixOver, if_pos ⟨het, hexpos⟩]
          simp [hf, hcnt2]
        have hc2t : cnt2 t = cnt t - 1 := by
          rw [hcnt2, upd_other _ _ _ (Ne.symm hrt), upd_self]
        have hc2r : cnt2 r = cnt r + 1 := by
          rw [hcnt2, upd_self, upd_other _ _ _ hrt]
        have hc2o : ∀ c, c ≠ t → c ≠ r → cnt2 c = cnt c := by
          intro c h1 h2
          rw [hcnt2, upd_other _ _ _ h2, upd_other _ _ _ h1]
        -- sum preservation through the two updates
        have hsum1 : sumSix (upd cnt t (cnt t - 1)) + cnt t = sumSix cnt + (cnt t - 1) :=
          sum_map_upd expectedColors cnt (cnt t - 1) expectedColors_nodup ht
        have hsum2 : sumSix cnt2 + (upd cnt t (cnt t - 1)) r =
            sumSix (upd cnt t (cnt t - 1)) + ((upd cnt t (cnt t - 1)) r + 1) :=
          sum_map_upd expectedColors (upd cnt t (cnt t - 1))
            ((upd cnt t (cnt t - 1)) r + 1) expectedColors_nodup hr6
        have hsum2' : sumSix cnt2 = 54 := by omega
        have hc2teq : cnt2 t = 9 + (ex - 1) := by omega
        have hexrest : ex - 1 ≤ rest.count t := by
          rw [het, count_cons_char, if_pos rfl] at hex
          omega
        obtain ⟨ih1, ih2, ih3, ih4, ih5⟩ := ih cnt2 (ex - 1) hsum2' hc2teq hexrest
        rw [hstep1, hstep2]
        refine ⟨ih1, ih2, ?_, ?_, ?_⟩
        · intro c hct
          obtain ⟨ihl, ihu⟩ := ih3 c hct
          by_cases hcr : c = r
          · have hv : cnt2 c = cnt c + 1 := by rw [hcr, hc2r]
            rw [hv] at ihl ihu
            have hclt : cnt c < 9 := by rw [hcr]; exact hrlt
            constructor
            · omega
            · have h1 : max (cnt c + 1) 9 = 9 := by omega
              have h2 : max (cnt c) 9 = 9 := by omega
              rw [h1] at ihu; rw [h2]; exact ihu
          · rw [hc2o c hct hcr] at ihl ihu
            exact ⟨ihl, ihu⟩
        · intro c
          have ih4c := ih4 c
          rw [count_cons_char c e, count_cons_char c r]
          by_cases hct : c = t
          · have hce : c = e := by rw [hct, het]
            have hcr : ¬ c = r := fun h => hrt (h.symm.trans hct)
            rw [if_pos hce, if_neg hcr]
            have hv : cnt2 c = cnt c - 1 := by rw [hct, hc2t]
            have hc9 : cnt c = 9 + ex := by rw [hct, hcnt]
            rw [hv] at ih4c
            omega
          · by_cases hcr : c = r
            · have hce : ¬ c = e := fun h => hct (h.trans het)
              rw [if_neg hce, if_pos hcr]
              have hv : cnt2 c = cnt c + 1 := by rw [hcr, hc2r]
              rw [hv] at ih4c
              omega
            · have hce : ¬ c = e := fun h => hct (h.trans het)
              rw [if_neg hce, if_neg hcr]
              rw [hc2o c hct hcr] at ih4c
              omega
        · intro x hx
          rcases List.mem_cons.mp hx with h1 | h1
          · exact Or.inl (h1 ▸ hr6)
          · rcases ih5 x h1 with h2 | h2
            · exact Or.inl h2
            · exact Or.inr (by simp [h2])
    · have hstep1 : (fixOver t (e :: rest) cnt ex).1 =
          e :: (fixOver t rest cnt ex).1 := by
        rw [fixOver, if_neg hcond]
      have hstep2 : (fixOver t (e :: rest) cnt ex).2 =
          (fixOver t rest cnt ex).2 := by
        rw [fixOver, if_neg hcond]
      have hexrest : ex ≤ rest.count t := by
        rcases Decidable.not_and_iff_or_not.mp hcond with h | h
        · rw [count_cons_char] at hex
          rw [if_neg (fun hte : t = e => h hte.symm)] at hex
          omega
        · omega
      obtain ⟨ih1, ih2, ih3, ih4, ih5⟩ := ih cnt ex hsum hcnt hexrest
      rw [hstep1, hstep2]
      refine ⟨ih1, ih2, ih3, ?_, ?_⟩
      · intro c
        have ih4c := ih4 c
        rw [count_cons_char c e, count_cons_char c e]
        by_cases hce : c = e
        · rw [if_pos hce]; omega
        · rw [if_neg hce]; omega
      · intro x hx
        rcases List.mem_cons.mp hx with h1 | h1
        · exact Or.inr (by simp [h1])
        · rcases ih5 x h1 with h2 | h2
          · exact Or.inl h2
          · exact Or.inr (by simp [h2])

/-- Invariant analysis of the `count < 9` branch: the deficit is fully
absorbed (the target ends at exactly nine), the six-color total is
preserved, other colors only shrink and never below nine (unless they
already were), and the count table stays synchronised with the list.
The key precondition: every over-counted color still has its whole excess
ahead of the scan position. -/
theorem fixUnder_spec (t : Char) (ht : t ∈ expectedColors) :
    ∀ (rem : List Char) (cnt : Char → Nat) (needed : Nat),
      sumSix cnt = 54 →
      cnt t + needed = 9 →
      (∀ c ∈ expectedColors, 9 < cnt c → cnt c - 9 ≤ rem.count c) →
      (fixUnder t rem cnt needed).2 t = 9 ∧
      sumSix (fixUnder t rem cnt needed).2 = 54 ∧
      (∀ c, c ≠ t → (fixUnder t rem cnt needed).2 c ≤ cnt c ∧
        min (cnt c) 9 ≤ (fixUnder t rem cnt needed).2 c) ∧
      (∀ c, (fixUnder t rem cnt needed).2 c + rem.count c
        = cnt c + (fixUnder t rem cnt needed).1.count c) ∧
      (∀ e ∈ (fixUnder t rem cnt needed).1, e ∈ expectedColors ∨ e ∈ rem) := by
  intro rem
  induction rem with
  | nil =>
    intro cnt needed hsum hcnt hahead
    have hn0 : needed = 0 := by
      by_contra hn0
      have hub : ∀ c ∈ expectedColors, cnt c ≤ 9 := by
        intro c hc
        by_contra hgt
        have := hahead c hc (by omega)
        simp at this
        omega
      have := mem_upper_sum expectedColors cnt 9 expectedColors_nodup ht hub
      have hlen : expectedColors.length = 6 := by decide
      rw [hlen] at this
      unfold sumSix at hsum
      omega
    subst hn0
    refine ⟨by simp [fixUnder]; omega, hsum, ?_, ?_, ?_⟩
    · intro c _; constructor <;> simp [fixUnder, min_le_iff]
    · intro c; simp [fixUnder]
    · intro e he; simp [fixUnder] at he
  | cons e rest ih =>
    intro cnt needed hsum hcnt hahead
    by_cases hn0 : needed = 0
    · have hstep1 : (fixUnder t (e :: rest) cnt needed).1 = e :: rest := by
        rw [fixUnder, if_pos hn0]
      have hstep2 : (fixUnder t (e :: rest) cnt needed).2 = cnt := by
        rw [fixUnder, if_pos hn0]
      rw [hstep1, hstep2]
      refine ⟨by omega, hsum, ?_, ?_, ?_⟩
      · intro c _; constructor
        · exact le_refl _
        · exact min_le_left _ _
      · intro c; rfl
      · intro x hx; exact Or.inr hx
    · rcases hf : expectedColors.find? (fun x => decide (9 < cnt x) && (e == x)) with _ | x
      · -- the head position does not hold an over-counted expected color
        have hstep1 : (fixUnder t (e :: rest) cnt needed).1 =
            e :: (fixUnder t rest cnt needed).1 := by
          rw [fixUnder, if_neg hn0]
          simp [hf]
        have hstep2 : (fixUnder t (e :: rest) cnt needed).2 =
            (fixUnder t rest cnt needed).2 := by
          rw [fixUnder, if_neg hn0]
          simp [hf]
        have hahead' : ∀ c ∈ expectedColors, 9 < cnt c → cnt c - 9 ≤ rest.count c := by
          intro c hc hgt
          have hpred := List.find?_eq_none.mp hf c hc
          simp at hpred
          have hce : ¬ c = e := fun hce => hpred hgt hce.symm
          have := hahead c hc hgt
          rw [count_cons_char, if_neg hce] at this
          omega
        obtain ⟨ih1, ih2, ih3, ih4, ih5⟩ := ih cnt needed hsum hcnt hahead'
        rw [hstep1, hstep2]
        refine ⟨ih1, ih2, ih3, ?_, ?_⟩
        · intro c
          have ih4c := ih4 c
          rw [count_cons_char c e, count_cons_char c e]
          by_cases hce : c = e
          · rw [if_pos hce]; omega
          · rw [if_neg hce]; omega
        · intro x hx
          rcases List.mem_cons.mp hx with h1 | h1
          · exact Or.inr (by simp [h1])
          · rcases ih5 x h1 with h2 | h2
            · exact Or.inl h2
            · exact Or.inr (by simp [h2])
      · have hpred := List.find?_some hf
        simp at hpred
        obtain ⟨hxgt, hex⟩ := hpred
        subst hex
        have he6 : e ∈ expectedColors := List.mem_of_find?_eq_some hf
        have hegt : 9 < cnt e := hxgt
        have het : e ≠ t := by
          intro h; rw [h] at hegt; omega
        set cnt2 := upd (upd cnt e (cnt e - 1)) t ((upd cnt e (cnt e - 1)) t + 1) with hcnt2
        have hstep1 : (fixUnder t (e :: rest) cnt needed).1 =
            t :: (fixUnder t rest cnt2 (needed - 1)).1 := by
          rw [fixUnder, if_neg hn0]
          simp [hf, hcnt2]
        have hstep2 : (fixUnder t (e :: rest) cnt needed).2 =
            (fixUnder t rest cnt2 (needed - 1)).2 := by
          rw [fixUnder, if_neg hn0]
          simp [hf, hcnt2]
        have hc2t : cnt2 t = cnt t + 1 := by
          rw [hcnt2, upd_self, upd_other _ _ _ (Ne.symm het)]
        have hc2e : cnt2 e = cnt e - 1 := by
          rw [hcnt2, upd_other _ _ _ het, upd_self]
        have hc2o : ∀ c, c ≠ t → c ≠ e → cnt2 c = cnt c := by
          intro c h1 h2
          rw [hcnt2, upd_other _ _ _ h1, upd_other _ _ _ h2]
        have hsum1 : sumSix (upd cnt e (cnt e - 1)) + cnt e = sumSix cnt + (cnt e - 1) :=
          sum_map_upd expectedColors cnt (cnt e - 1) expectedColors_nodup he6
        have hsum2 : sumSix cnt2 + (upd cnt e (cnt e - 1)) t =
            sumSix (upd cnt e (cnt e - 1)) + ((upd cnt e (cnt e - 1)) t + 1) :=
          sum_map_upd expectedColors (upd cnt e (cnt e - 1))
            ((upd cnt e (cnt e - 1)) t + 1) expectedColors_nodup ht
        have hsum2' : sumSix cnt2 = 54 := by omega
        have hc2teq : cnt2 t + (needed - 1) = 9 := by omega
        have hahead' : ∀ c ∈ expectedColors, 9 < cnt2 c → cnt2 c - 9 ≤ rest.count c := by
          intro c hc hgt
          by_cases hct : c = t
          · exfalso; rw [hct, hc2t] at hgt; omega
          · by_cases hce : c = e
            · have hv : cnt2 c = cnt c - 1 := by rw [hce, hc2e]
              have := hahead c hc (by omega)
              rw [count_cons_char, if_pos hce] at this
              omega
            · have hv : cnt2 c = cnt c := hc2o c hct hce
              have := hahead c hc (by omega)
              rw [count_cons_char, if_neg hce] at this
              omega
        obtain ⟨ih1, ih2, ih3, ih4, ih5⟩ := ih cnt2 (needed - 1) hsum2' hc2teq hahead'
        rw [hstep1, hstep2]
        refine ⟨ih1, ih2, ?_, ?_, ?_⟩
        · intro c hct
          obtain ⟨ihu, ihl⟩ := ih3 c hct
          by_cases hce : c = e
          · have hv : cnt2 c = cnt c - 1 := by rw [hce, hc2e]
            rw [hv] at ihu ihl
            have hc9 : 9 < cnt c := by rw [hce]; exact hegt
            constructor
            · omega
            · have h1 : min (cnt c - 1) 9 = 9 := by omega
              have h2 : min (cnt c) 9 = 9 := by omega
              rw [h1] at ihl; rw [h2]; exact ihl
          · rw [hc2o c hct hce] at ihu ihl
            exact ⟨ihu, ihl⟩
        · intro c
          have ih4c := ih4 c
          rw [count_cons_char c e, count_cons_char c t]
          by_cases hct : c = t
          · have hce : ¬ c = e := fun h => het (h.symm.trans hct)
            rw [if_neg hce, if_pos hct]
            have hv : cnt2 c = cnt c + 1 := by rw [hct, hc2t]
            rw [hv] at ih4c
            omega
          · by_cases hce : c = e
            · rw [if_pos hce, if_neg hct]
              have hv : cnt2 c = cnt c - 1 := by rw [hce, hc2e]
              have hc9 : 9 < cnt c := by rw [hce]; exact hegt
              rw [hv] at ih4c
              omega
            · rw [if_neg hce, if_neg hct]
              rw [hc2o c hct hce] at ih4c
              omega
        · intro x hx
          rcases List.mem_cons.mp hx with h1 | h1
          · exact Or.inl (h1 ▸ ht)
          · rcases ih5 x h1 with h2 | h2
            · exact Or.inl h2
            · exact Or.inr (by simp [h2])

/-- Outer-loop invariant: every processed target color ends at exactly nine,
colors already at nine are never disturbed, and the count table stays
synchronised with the list. -/
theorem fixLoop_spec :
    ∀ (ts : List Char) (lst : List Char) (cnt : Char → Nat),
      (∀ x ∈ ts, x ∈ expectedColors) →
      (∀ c, cnt c = lst.count c) →
      sumSix cnt = 54 →
      (∀ x ∈ ts, (fixLoop ts lst cnt).2 x = 9) ∧
      (∀ c, cnt c = 9 → (fixLoop ts lst cnt).2 c = 9) ∧
      (∀ c, (fixLoop ts lst cnt).2 c = (fixLoop ts lst cnt).1.count c) ∧
      (∀ e ∈ (fixLoop ts lst cnt).1, e ∈ expectedColors ∨ e ∈ lst) := by
  intro ts
  induction ts with
  | nil =>
    intro lst cnt _ hsync _
    exact ⟨by simp, fun c hc => by simpa [fixLoop] using hc,
      fun c => by simpa [fixLoop] using hsync c, fun e he => Or.inr (by simpa [fixLoop] using he)⟩
  | cons t ts ih =>
    intro lst cnt hts hsync hsum
    have ht6 : t ∈ expectedColors := hts t (by simp)
    have hts' : ∀ x ∈ ts, x ∈ expectedColors := fun x hx => hts x (by simp [hx])
    by_cases h1 : 9 < cnt t
    · have hstep1 : (fixLoop (t :: ts) lst cnt).1 =
          (fixLoop ts (fixOver t lst cnt (cnt t - 9)).1 (fixOver t lst cnt (cnt t - 9)).2).1 := by
        rw [fixLoop]; simp only [if_pos h1]
      have hstep2 : (fixLoop (t :: ts) lst cnt).2 =
          (fixLoop ts (fixOver t lst cnt (cnt t - 9)).1 (fixOver t lst cnt (cnt t - 9)).2).2 := by
        rw [fixLoop]; simp only [if_pos h1]
      obtain ⟨q1, q2, q3, q4, q5⟩ := fixOver_spec t ht6 lst cnt (cnt t - 9) hsum
        (by omega) (by rw [← hsync t]; omega)
      have hsync' : ∀ c, (fixOver t lst cnt (cnt t - 9)).2 c =
          (fixOver t lst cnt (cnt t - 9)).1.count c := by
        intro c
        have := q4 c
        have := hsync c
        omega
      obtain ⟨j1, j2, j3, j4⟩ := ih (fixOver t lst cnt (cnt t - 9)).1
        (fixOver t lst cnt (cnt t - 9)).2 hts' hsync' q2
      rw [hstep1, hstep2]
      refine ⟨?_, ?_, j3, ?_⟩
      · intro x hx
        rcases List.mem_cons.mp hx with h2 | h2
        · exact h2 ▸ j2 _ (h2 ▸ q1)
        · exact j1 x h2
      · intro c hc
        have hct : c ≠ t := fun h => by rw [h] at hc; omega
        obtain ⟨hl, hu⟩ := q3 c hct
        have : (fixOver t lst cnt (cnt t - 9)).2 c = 9 := by
          rw [hc] at hl hu
          have : max 9 9 = 9 := by omega
          omega
        exact j2 c this
      · intro e he
        rcases j4 e he with h2 | h2
        · exact Or.inl h2
        · rcases q5 e h2 with h3 | h3
          · exact Or.inl h3
          · exact Or.inr h3
    · by_cases h2 : cnt t < 9
      · have hstep1 : (fixLoop (t :: ts) lst cnt).1 =
            (fixLoop ts (fixUnder t lst cnt (9 - cnt t)).1 (fixUnder t lst cnt (9 - cnt t)).2).1 := by
          rw [fixLoop]; simp only [if_neg h1, if_pos h2]
        have hstep2 : (fixLoop (t :: ts) lst cnt).2 =
            (fixLoop ts (fixUnder t lst cnt (9 - cnt t)).1 (fixUnder t lst cnt (9 - cnt t)).2).2 := by
          rw [fixLoop]; simp only [if_neg h1, if_pos h2]
        obtain ⟨q1, q2, q3, q4, q5⟩ := fixUnder_spec t ht6 lst cnt (9 - cnt t) hsum
          (by omega) (by intro c _ hgt; rw [← hsync c]; omega)
        have hsync' : ∀ c, (fixUnder t lst cnt (9 - cnt t)).2 c =
            (fixUnder t lst cnt (9 - cnt t)).1.count c := by
          intro c
          have := q4 c
          have := hsync c
          omega
        obtain ⟨j1, j2, j3, j4⟩ := ih (fixUnder t lst cnt (9 - cnt t)).1
          (fixUnder t lst cnt (9 - cnt t)).2 hts' hsync' q2
        rw [hstep1, hstep2]
        refine ⟨?_, ?_, j3, ?_⟩
        · intro x hx
          rcases List.mem_cons.mp hx with h3 | h3
          · exact h3 ▸ j2 _ (h3 ▸ q1)
          · exact j1 x h3
        · intro c hc
          have hct : c ≠ t := fun h => by rw [h] at hc; omega
          obtain ⟨hu, hl⟩ := q3 c hct
          have : (fixUnder t lst cnt (9 - cnt t)).2 c = 9 := by
            rw [hc] at hl hu
            have : min 9 9 = 9 := by omega
            omega
          exact j2 c this
        · intro e he
          rcases j4 e he with h3 | h3
          · exact Or.inl h3
          · rcases q5 e h3 with h4 | h4
            · exact Or.inl h4
            · exact Or.inr h4
      · have heq : cnt t = 9 := by omega
        have hstep1 : (fixLoop (t :: ts) lst cnt).1 = (fixLoop ts lst cnt).1 := by
          rw [fixLoop]; simp only [if_neg h1, if_neg h2]
        have hstep2 : (fixLoop (t :: ts) lst cnt).2 = (fixLoop ts lst cnt).2 := by
          rw [fixLoop]; simp only [if_neg h1, if_neg h2]
        obtain ⟨j1, j2, j3, j4⟩ := ih lst cnt hts' hsync hsum
        rw [hstep1, hstep2]
        refine ⟨?_, j2, j3, j4⟩
        intro x hx
        rcases List.mem_cons.mp hx with h3 | h3
        · exact h3 ▸ j2 _ (h3 ▸ heq)
        · exact j1 x h3

/-- When every count is already nine and the input only uses the six
symbols, `needs_fixing` is false. -/
theorem needsFixing_eq_false (s : List Char)
    (h6 : ∀ c ∈ s, c ∈ expectedColors)
    (h9 : ∀ c ∈ expectedColors, s.count c = 9) :
    needsFixing s = false := by
  unfold needsFixing
  rw [Bool.or_eq_false_iff]
  constructor
  · rw [List.any_eq_false]
    intro c hc
    simp [h9 c hc]
  · rw [List.any_eq_false]
    intro c hc
    simp [h9 c (h6 c hc)]

/-- When `needs_fixing` is false, every one of the six counts is nine. -/
theorem counts_of_needsFixing_false (s : List Char)
    (h : needsFixing s = false) : ∀ c ∈ expectedColors, s.count c = 9 := by
  unfold needsFixing at h
  rw [Bool.or_eq_false_iff] at h
  obtain ⟨h1, _⟩ := h
  rw [List.any_eq_false] at h1
  intro c hc
  have := h1 c hc
  simpa using this

/-- Shared success analysis of `validate_and_fix_cube_state` on a
54-character input over the six symbols: it returns a 54-character output
over the six symbols with every count exactly nine. -/
theorem vfx_ok (s : List Char) (h6 : ∀ c ∈ s, c ∈ expectedColors)
    (h54 : s.length = 54) :
    ∃ out, validate_and_fix_cube_state s = Except.ok out ∧
      out.length = 54 ∧ (∀ c ∈ out, c ∈ expectedColors) ∧
      (∀ c ∈ expectedColors, out.count c = 9) := by
  by_cases hneed : needsFixing s
  · refine ⟨(fixLoop expectedColors s (fun c => s.count c)).1, ?_, ?_, ?_, ?_⟩
    · simp [validate_and_fix_cube_state, h54, hneed]
    · rw [fixLoop_length]; exact h54
    · obtain ⟨_, _, _, j4⟩ := fixLoop_spec expectedColors s (fun c => s.count c)
        (fun x hx => hx) (fun c => rfl) (by rw [sumSix_of_allsix s h6, h54])
      intro c hc
      rcases j4 c hc with h | h
      · exact h
      · exact h6 c h
    · obtain ⟨j1, _, j3, _⟩ := fixLoop_spec expectedColors s (fun c => s.count c)
        (fun x hx => hx) (fun c => rfl) (by rw [sumSix_of_allsix s h6, h54])
      intro c hc
      rw [← j3 c]
      exact j1 c hc
  · refine ⟨s, ?_, h54, h6, ?_⟩
    · simp [validate_and_fix_cube_state, h54, hneed]
    · exact counts_of_needsFixing_false s (by simpa using hneed)

/-- C1: on every 54-character input over the six symbols, the greedy
per-color pass of `validate_and_fix_cube_state` converges: each of the six
symbols occurs exactly nine times in the output. -/
theorem global_repair_reaches_nine_each (s : List Char)
    (h6 : ∀ c ∈ s, c ∈ expectedColors) (h54 : s.length = 54) :
    ∃ out, validate_and_fix_cube_state s = Except.ok out ∧
      ∀ c ∈ expectedColors, out.count c = 9 := by
  obtain ⟨out, hok, _, _, h9⟩ := vfx_ok s h6 h54
  exact ⟨out, hok, h9⟩

theorem global_repair_reaches_nine_each_witness :
    ∃ out, validate_and_fix_cube_state (List.replicate 54 'U') = Except.ok out ∧
      ∀ c ∈ expectedColors, out.count c = 9 :=
  global_repair_reaches_nine_each (List.replicate 54 'U') (by decide) (by decide)

/-- C2: `validate_and_fix_cube_state` is idempotent on 54-character inputs
over the six symbols: repairing a repaired state is a no-op. -/
theorem global_repair_idempotent (s : List Char)
    (h6 : ∀ c ∈ s, c ∈ expectedColors) (h54 : s.length = 54) :
    (validate_and_fix_cube_state s).bind validate_and_fix_cube_state
      = validate_and_fix_cube_state s := by
  obtain ⟨out, hok, hlen, hmem, h9⟩ := vfx_ok s h6 h54
  rw [hok]
  show validate_and_fix_cube_state out = Except.ok out
  have hnf : needsFixing out = false := needsFixing_eq_false out hmem h9
  simp [validate_and_fix_cube_state, hlen, hnf]

theorem global_repair_idempotent_witness :
    (validate_and_fix_cube_state (List.replicate 54 'U')).bind validate_and_fix_cube_state
      = validate_and_fix_cube_state (List.replicate 54 'U') :=
  global_repair_idempotent (List.replicate 54 'U') (by decide) (by decide)

/-- C3: `validate_and_fix_cube_state` fails exactly on inputs whose length
is not 54; on 54-character inputs it succeeds and the output again has
length exactly 54. -/
theorem vfx_error_iff_length (s : List Char) :
    ((∃ m, validate_and_fix_cube_state s = Except.error m) ↔ s.length ≠ 54) ∧
    (s.length = 54 → ∃ out, validate_and_fix_cube_state s = Except.ok out ∧
      out.length = 54) := by
  constructor
  · constructor
    · rintro ⟨m, hm⟩
      intro h54
      rw [validate_and_fix_cube_state] at hm
      rw [if_neg (by omega)] at hm
      by_cases hneed : needsFixing s <;> simp [hneed] at hm
    · intro h54
      refine ⟨("Cube state must be 54 characters, got ".toList)
        ++ (toString s.length).toList, ?_⟩
      rw [validate_and_fix_cube_state, if_pos h54]
  · intro h54
    by_cases hneed : needsFixing s
    · refine ⟨(fixLoop expectedColors s (fun c => s.count c)).1, ?_, ?_⟩
      · simp [validate_and_fix_cube_state, h54, hneed]
      · rw [fixLoop_length]; exact h54
    · refine ⟨s, ?_, h54⟩
      simp [validate_and_fix_cube_state, h54, hneed]

theorem vfx_error_iff_length_witness :
    (∃ m, validate_and_fix_cube_state ['a'] = Except.error m) ∧
    (∃ out, validate_and_fix_cube_state (List.replicate 54 'F') = Except.ok out ∧
      out.length = 54) :=
  ⟨(vfx_error_iff_length ['a']).1.mpr (by decide),
   (vfx_error_iff_length (List.replicate 54 'F')).2 (by decide)⟩

/-- C4: an input already satisfying the nine-each invariant is returned
unchanged, character for character. -/
theorem vfx_balanced_unchanged (s : List Char)
    (h6 : ∀ c ∈ s, c ∈ expectedColors) (h54 : s.length = 54)
    (h9 : ∀ c ∈ expectedColors, s.count c = 9) :
    validate_and_fix_cube_state s = Except.ok s := by
  have hnf : needsFixing s = false := needsFixing_eq_false s h6 h9
  simp [validate_and_fix_cube_state, h54, hnf]

theorem vfx_balanced_unchanged_witness :
    validate_and_fix_cube_state
      (List.replicate 9 'U' ++ List.replicate 9 'R' ++ List.replicate 9 'F'
        ++ List.replicate 9 'D' ++ List.replicate 9 'L' ++ List.replicate 9 'B')
      = Except.ok
      (List.replicate 9 'U' ++ List.replicate 9 'R' ++ List.replicate 9 'F'
        ++ List.replicate 9 'D' ++ List.replicate 9 'L' ++ List.replicate 9 'B') :=
  vfx_balanced_unchanged _ (by decide) (by decide) (by decide)

/-! ## FaceDistributionRepair: `fix_color_distribution`
    (color_recognition.py 131-185) -/

/-- One step of rebuilding a Python dict's key list: a key is appended on
its first appearance. -/
def addKey (acc : List Char) (c : Char) : List Char :=
  if c ∈ acc then acc else acc ++ [c]

/-- The key list of the count dict built by scanning the sequence: distinct
symbols in order of first appearance (Python dict insertion order). -/
def firstKeys (l : List Char) : List Char := l.foldl addKey []

/-- `max(items, key=lambda x: x[1])` over a nonempty key list: the first
key attaining the maximal count (later keys win only on a strictly greater
count). The empty-list default is never reached by the callers. -/
def argmaxF (cnt : Char → Nat) : List Char → Char × Nat
  | [] => ('U', 0)
  | k :: ks => ks.foldl (fun best x => if best.2 < cnt x then (x, cnt x) else best) (k, cnt k)

/-- `min(items, key=lambda x: x[1])`: the first key attaining the minimal
count. -/
def argminF (cnt : Char → Nat) : List Char → Char × Nat
  | [] => ('U', 0)
  | k :: ks => ks.foldl (fun best x => if cnt x < best.2 then (x, cnt x) else best) (k, cnt k)

/-- The aggressive first repair pass (color_recognition.py 150-164): for up
to `most_common − 3` positions holding the most common color, replace the
position with the first other fixed color currently counted below 2; the
budget is spent on every visited position even when no replacement
candidate exists. -/
def pass1 (mc : Char) (repl : List Char) : List Char → (Char → Nat) → Nat → List Char × (Char → Nat)
  | [], cnt, _ => ([], cnt)
  | e :: rest, cnt, ex =>
    if e = mc ∧ 0 < ex then
      match repl.find? (fun r => decide (cnt r < 2)) with
      | some r =>
        let cnt1 := upd cnt r (cnt r + 1)
        let cnt2 := upd cnt1 mc (cnt1 mc - 1)
        let p := pass1 mc repl rest cnt2 (ex - 1)
        (r :: p.1, p.2)
      | none =>
        let p := pass1 mc repl rest cnt (ex - 1)
        (e :: p.1, p.2)
    else
      let p := pass1 mc repl rest cnt ex
      (e :: p.1, p.2)

/-- The inner scan of the final check (color_recognition.py 174-182): while
excess remains, a position holding the over-counted color is replaced by
the currently least common color (recomputed at every step over the fixed
key list), unless the minimum is the color itself. -/
def pass2inner (color : Char) (keys : List Char) : List Char → (Char → Nat) → Nat → List Char × (Char → Nat)
  | [], f, _ => ([], f)
  | e :: rest, f, ex =>
    if e = color ∧ 0 < ex then
      let lc := argminF f keys
      if lc.1 ≠ color then
        let f1 := upd f lc.1 (f lc.1 + 1)
        let f2 := upd f1 color (f1 color - 1)
        let p := pass2inner color keys rest f2 (ex - 1)
        (lc.1 :: p.1, p.2)
      else
        let p := pass2inner color keys rest f ex
        (e :: p.1, p.2)
    else
      let p := pass2inner color keys rest f ex
      (e :: p.1, p.2)

/-- The final check loop (color_recognition.py 171-182): iterate the keys of
the recount dict; any color whose current count exceeds 5 has its excess
beyond 4 pushed onto the currently least common colors. -/
def pass2 (keys : List Char) : List Char → List Char → (Char → Nat) → List Char × (Char → Nat)
  | [], lst, f => (lst, f)
  | color :: ks, lst, f =>
    if 5 < f color then
      let p := pass2inner color keys lst f (f color - 4)
      pass2 keys ks p.1 p.2
    else pass2 keys ks lst f

/-- `fix_color_distribution` (color_recognition.py 131-185): when more than
one distinct symbol is present and the most common one occurs more than 6
times, run the aggressive pass (only above 7) and then the final check. -/
def fix_color_distribution (face : List Char) : List Char :=
  let cnt := fun c => face.count c
  let keys := firstKeys face
  if 1 < keys.length then
    let mc := argmaxF cnt keys
    if 6 < mc.2 then
      let face1 :=
        if 7 < mc.2 then
          (pass1 mc.1 (expectedColors.filter (fun c => c != mc.1)) face cnt (mc.2 - 3)).1
        else face
      let keys1 := firstKeys face1
      (pass2 keys1 keys1 face1 (fun c => face1.count c)).1
    else face
  else face

/-! ### Key-list and argmin/argmax facts -/

theorem foldl_addKey_mem :
    ∀ (l acc : List Char) (c : Char), c ∈ l.foldl addKey acc ↔ c ∈ acc ∨ c ∈ l := by
  intro l
  induction l with
  | nil => intro acc c; simp
  | cons a rest ih =>
    intro acc c
    simp only [List.foldl_cons]
    rw [ih]
    unfold addKey
    by_cases ha : a ∈ acc
    · rw [if_pos ha]
      constructor
      · rintro (h | h)
        · exact Or.inl h
        · exact Or.inr (by simp [h])
      · rintro (h | h)
        · exact Or.inl h
        · rcases List.mem_cons.mp h with h1 | h1
          · exact Or.inl (h1 ▸ ha)
          · exact Or.inr h1
    · rw [if_neg ha]
      constructor
      · rintro (h | h)
        · rcases List.mem_append.mp h with h1 | h1
          · exact Or.inl h1
          · simp at h1
            exact Or.inr (by simp [h1])
        · exact Or.inr (by simp [h])
      · rintro (h | h)
        · exact Or.inl (List.mem_append.mpr (Or.inl h))
        · rcases List.mem_cons.mp h with h1 | h1
          · exact Or.inl (by simp [h1])
          · exact Or.inr h1

theorem foldl_addKey_nodup :
    ∀ (l acc : List Char), acc.Nodup → (l.foldl addKey acc).Nodup := by
  intro l
  induction l with
  | nil => intro acc h; simpa using h
  | cons a rest ih =>
    intro acc h
    simp only [List.foldl_cons]
    apply ih
    unfold addKey
    by_cases ha : a ∈ acc
    · rwa [if_pos ha]
    · rw [if_neg ha]
      rw [List.nodup_append]
      exact ⟨h, by simp, by simpa using ha⟩

theorem firstKeys_mem (l : List Char) (c : Char) : c ∈ firstKeys l ↔ c ∈ l := by
  unfold firstKeys
  rw [foldl_addKey_mem]
  simp

theorem firstKeys_nodup (l : List Char) : (firstKeys l).Nodup :=
  foldl_addKey_nodup l [] (by simp)

theorem argmin_fold (cnt : Char → Nat) :
    ∀ (ks : List Char) (best : Char × Nat), best.2 = cnt best.1 →
      ((ks.foldl (fun b x => if cnt x < b.2 then (x, cnt x) else b) best).2
        = cnt (ks.foldl (fun b x => if cnt x < b.2 then (x, cnt x) else b) best).1) ∧
      ((ks.foldl (fun b x => if cnt x < b.2 then (x, cnt x) else b) best).1 = best.1 ∨
        (ks.foldl (fun b x => if cnt x < b.2 then (x, cnt x) else b) best).1 ∈ ks) ∧
      ((ks.foldl (fun b x => if cnt x < b.2 then (x, cnt x) else b) best).2 ≤ best.2) ∧
      (∀ x ∈ ks, (ks.foldl (fun b x => if cnt x < b.2 then (x, cnt x) else b) best).2 ≤ cnt x) := by
  intro ks
  induction ks with
  | nil => intro best h; exact ⟨h, Or.inl rfl, le_refl _, by simp⟩
  | cons a rest ih =>
    intro best h
    simp only [List.foldl_cons]
    by_cases ha : cnt a < best.2
    · rw [if_pos ha]
      obtain ⟨i1, i2, i3, i4⟩ := ih (a, cnt a) rfl
      refine ⟨i1, ?_, by omega, ?_⟩
      · rcases i2 with h1 | h1
        · exact Or.inr (by simp [h1])
        · exact Or.inr (by simp [h1])
      · intro x hx
        rcases List.mem_cons.mp hx with h1 | h1
        · subst h1; omega
        · exact i4 x h1
    · rw [if_neg ha]
      obtain ⟨i1, i2, i3, i4⟩ := ih best h
      refine ⟨i1, ?_, i3, ?_⟩
      · rcases i2 with h1 | h1
        · exact Or.inl h1
        · exact Or.inr (by simp [h1])
      · intro x hx
        rcases List.mem_cons.mp hx with h1 | h1
        · subst h1; omega
        · exact i4 x h1

theorem argminF_spec (cnt : Char → Nat) (ks : List Char) (hne : ks ≠ []) :
    (argminF cnt ks).1 ∈ ks ∧ (argminF cnt ks).2 = cnt (argminF cnt ks).1 ∧
      ∀ x ∈ ks, (argminF cnt ks).2 ≤ cnt x := by
  cases ks with
  | nil => exact absurd rfl hne
  | cons k rest =>
    rw [argminF]
    obtain ⟨i1, i2, i3, i4⟩ := argmin_fold cnt rest (k, cnt k) rfl
    refine ⟨?_, i1, ?_⟩
    · rcases i2 with h1 | h1
      · simp [h1]
      · simp [h1]
    · intro x hx
      rcases List.mem_cons.mp hx with h1 | h1
      · subst h1; exact i3
      · exact i4 x h1

theorem argmax_fold (cnt : Char → Nat) :
    ∀ (ks : List Char) (best : Char × Nat), best.2 = cnt best.1 →
      ((ks.foldl (fun b x => if b.2 < cnt x then (x, cnt x) else b) best).2
        = cnt (ks.foldl (fun b x => if b.2 < cnt x then (x, cnt x) else b) best).1) ∧
      ((ks.foldl (fun b x => if b.2 < cnt x then (x, cnt x) else b) best).1 = best.1 ∨
        (ks.foldl (fun b x => if b.2 < cnt x then (x, cnt x) else b) best).1 ∈ ks) ∧
      (best.2 ≤ (ks.foldl (fun b x => if b.2 < cnt x then (x, cnt x) else b) best).2) ∧
      (∀ x ∈ ks, cnt x ≤ (ks.foldl (fun b x => if b.2 < cnt x then (x, cnt x) else b) best).2) := by
  intro ks
  induction ks with
  | nil => intro best h; exact ⟨h, Or.inl rfl, le_refl _, by simp⟩
  | cons a rest ih =>
    intro best h
    simp only [List.foldl_cons]
    by_cases ha : best.2 < cnt a
    · rw [if_pos ha]
      obtain ⟨i1, i2, i3, i4⟩ := ih (a, cnt a) rfl
      refine ⟨i1, ?_, by omega, ?_⟩
      · rcases i2 with h1 | h1
        · exact Or.inr (by simp [h1])
        · exact Or.inr (by simp [h1])
      · intro x hx
        rcases List.mem_cons.mp hx with h1 | h1
        · subst h1; omega
        · exact i4 x h1
    · rw [if_neg ha]
      obtain ⟨i1, i2, i3, i4⟩ := ih best h
      refine ⟨i1, ?_, i3, ?_⟩
      · rcases i2 with h1 | h1
        · exact Or.inl h1
        · exact Or.inr (by simp [h1])
      · intro x hx
        rcases List.mem_cons.mp hx with h1 | h1
        · subst h1; omega
        · exact i4 x h1

theorem argmaxF_spec (cnt : Char → Nat) (ks : List Char) (hne : ks ≠ []) :
    (argmaxF cnt ks).1 ∈ ks ∧ (argmaxF cnt ks).2 = cnt (argmaxF cnt ks).1 ∧
      ∀ x ∈ ks, cnt x ≤ (argmaxF cnt ks).2 := by
  cases ks with
  | nil => exact absurd rfl hne
  | cons k rest =>
    rw [argmaxF]
    obtain ⟨i1, i2, i3, i4⟩ := argmax_fold cnt rest (k, cnt k) rfl
    refine ⟨?_, i1, ?_⟩
    · rcases i2 with h1 | h1
      · simp [h1]
      · simp [h1]
    · intro x hx
      rcases List.mem_cons.mp hx with h1 | h1
      · subst h1; exact i3
      · exact i4 x h1

/-! ### Length and alphabet preservation of the face repair -/

theorem pass1_length (mc : Char) (repl : List Char) :
    ∀ (rem : List Char) (cnt : Char → Nat) (ex : Nat),
      (pass1 mc repl rem cnt ex).1.length = rem.length := by
  intro rem
  induction rem with
  | nil => intro cnt ex; rfl
  | cons e rest ih =>
    intro cnt ex
    by_cases h : e = mc ∧ 0 < ex
    · rw [pass1, if_pos h]
      rcases hf : repl.find? (fun r => decide (cnt r < 2)) with _ | r <;> simp [hf, ih]
    · rw [pass1, if_neg h]
      simp [ih]

theorem pass2inner_length (color : Char) (keys : List Char) :
    ∀ (rem : List Char) (f : Char → Nat) (ex : Nat),
      (pass2inner color keys rem f ex).1.length = rem.length := by
  intro rem
  induction rem with
  | nil => intro f ex; rfl
  | cons e rest ih =>
    intro f ex
    by_cases h : e = color ∧ 0 < ex
    · rw [pass2inner, if_pos h]
      by_cases hlc : (argminF f keys).1 ≠ color <;> simp [hlc, ih]
    · rw [pass2inner, if_neg h]
      simp [ih]

theorem pass2_length (keys : List Char) :
    ∀ (ks lst : List Char) (f : Char → Nat),
      (pass2 keys ks lst f).1.length = lst.length := by
  intro ks
  induction ks with
  | nil => intro lst f; rfl
  | cons color rest ih =>
    intro lst f
    rw [pass2]
    by_cases h : 5 < f color
    · simp only [if_pos h]
      rw [ih, pass2inner_length]
    · simp only [if_neg h]
      exact ih lst f

theorem fix_color_distribution_length (face : List Char) :
    (fix_color_distribution face).length = face.length := by
  unfold fix_color_distribution
  by_cases h1 : 1 < (firstKeys face).length
  · simp only [if_pos h1]
    by_cases h2 : 6 < (argmaxF (fun c => face.count c) (firstKeys face)).2
    · simp only [if_pos h2]
      by_cases h3 : 7 < (argmaxF (fun c => face.count c) (firstKeys face)).2 <;>
        simp [h3, pass2_length, pass1_length]
    · simp [h2]
  · simp [h1]

theorem pass1_mem (mc : Char) (repl : List Char) :
    ∀ (rem : List Char) (cnt : Char → Nat) (ex : Nat),
      ∀ e ∈ (pass1 mc repl rem cnt ex).1, e ∈ repl ∨ e ∈ rem := by
  intro rem
  induction rem with
  | nil => intro cnt ex e he; simp [pass1] at he
  | cons a rest ih =>
    intro cnt ex e he
    by_cases h : a = mc ∧ 0 < ex
    · rw [pass1, if_pos h] at he
      rcases hf : repl.find? (fun r => decide (cnt r < 2)) with _ | r <;>
        rw [hf] at he <;> simp only [] at he
      · rcases List.mem_cons.mp he with h1 | h1
        · exact Or.inr (by simp [h1])
        · rcases ih _ _ e h1 with h2 | h2
          · exact Or.inl h2
          · exact Or.inr (by simp [h2])
      · rcases List.mem_cons.mp he with h1 | h1
        · exact Or.inl (h1 ▸ List.mem_of_find?_eq_some hf)
        · rcases ih _ _ e h1 with h2 | h2
          · exact Or.inl h2
          · exact Or.inr (by simp [h2])
    · rw [pass1, if_neg h] at he
      simp only [] at he
      rcases List.mem_cons.mp he with h1 | h1
      · exact Or.inr (by simp [h1])
      · rcases ih _ _ e h1 with h2 | h2
        · exact Or.inl h2
        · exact Or.inr (by simp [h2])

theorem pass2inner_mem (color : Char) (keys : List Char) :
    ∀ (rem : List Char) (f : Char → Nat) (ex : Nat),
      ∀ e ∈ (pass2inner color keys rem f ex).1, e ∈ keys ∨ e = 'U' ∨ e ∈ rem := by
  intro rem
  induction rem with
  | nil => intro f ex e he; simp [pass2inner] at he
  | cons a rest ih =>
    intro f ex e he
    by_cases h : a = color ∧ 0 < ex
    · rw [pass2inner, if_pos h] at he
      by_cases hlc : (argminF f keys).1 ≠ color
      · rw [if_pos hlc] at he
        simp only [] at he
        rcases List.mem_cons.mp he with h1 | h1
        · by_cases hke : keys = []
          · refine Or.inr (Or.inl ?_)
            rw [h1, hke]; rfl
          · exact Or.inl (h1 ▸ (argminF_spec f keys hke).1)
        · rcases ih _ _ e h1 with h2 | h2 | h2
          · exact Or.inl h2
          · exact Or.inr (Or.inl h2)
          · exact Or.inr (Or.inr (by simp [h2]))
      · rw [if_neg hlc] at he
        simp only [] at he
        rcases List.mem_cons.mp he with h1 | h1
        · exact Or.inr (Or.inr (by simp [h1]))
        · rcases ih _ _ e h1 with h2 | h2 | h2
          · exact Or.inl h2
          · exact Or.inr (Or.inl h2)
          · exact Or.inr (Or.inr (by simp [h2]))
    · rw [pass2inner, if_neg h] at he
      simp only [] at he
      rcases List.mem_cons.mp he with h1 | h1
      · exact Or.inr (Or.inr (by simp [h1]))
      · rcases ih _ _ e h1 with h2 | h2 | h2
        · exact Or.inl h2
        · exact Or.inr (Or.inl h2)
        · exact Or.inr (Or.inr (by simp [h2]))

theorem pass2_mem (keys : List Char) :
    ∀ (ks lst : List Char) (f : Char → Nat),
      ∀ e ∈ (pass2 keys ks lst f).1, e ∈ keys ∨ e = 'U' ∨ e ∈ lst := by
  intro ks
  induction ks with
  | nil => intro lst f e he; exact Or.inr (Or.inr he)
  | cons color rest ih =>
    intro lst f e he
    rw [pass2] at he
    by_cases h : 5 < f color
    · rw [if_pos h] at he
      simp only [] at he
      rcases ih _ _ e he with h2 | h2 | h2
      · exact Or.inl h2
      · exact Or.inr (Or.inl h2)
      · rcases pass2inner_mem color keys lst f (f color - 4) e h2 with h3 | h3 | h3
        · exact Or.inl h3
        · exact Or.inr (Or.inl h3)
        · exact Or.inr (Or.inr h3)
    · rw [if_neg h] at he
      exact ih _ _ e he

/-- C6: on a face of nine symbols drawn from the six fixed colors,
`fix_color_distribution` never fails (it is total), returns exactly nine
symbols, and never introduces a symbol outside the six. -/
theorem face_repair_total_length_alphabet (face : List Char)
    (h9 : face.length = 9) (h6 : ∀ c ∈ face, c ∈ expectedColors) :
    (fix_color_distribution face).length = 9 ∧
      ∀ c ∈ fix_color_distribution face, c ∈ expectedColors := by
  refine ⟨by rw [fix_color_distribution_length, h9], ?_⟩
  intro c hc
  unfold fix_color_distribution at hc
  by_cases h1 : 1 < (firstKeys face).length
  · rw [if_pos h1] at hc
    by_cases h2 : 6 < (argmaxF (fun c => face.count c) (firstKeys face)).2
    · rw [if_pos h2] at hc
      simp only [] at hc
      set face1 :=
        (if 7 < (argmaxF (fun c => face.count c) (firstKeys face)).2 then
          (pass1 (argmaxF (fun c => face.count c) (firstKeys face)).1
            (expectedColors.filter (fun c => c != (argmaxF (fun c => face.count c) (firstKeys face)).1))
            face (fun c => face.count c)
            ((argmaxF (fun c => face.count c) (firstKeys face)).2 - 3)).1
        else face) with hface1
      have hface1mem : ∀ e ∈ face1, e ∈ expectedColors := by
        intro e he
        rw [hface1] at he
        by_cases h3 : 7 < (argmaxF (fun c => face.count c) (firstKeys face)).2
        · rw [if_pos h3] at he
          rcases pass1_mem _ _ face (fun c => face.count c) _ e he with hm | hm
          · exact (List.mem_filter.mp hm).1
          · exact h6 e hm
        · rw [if_neg h3] at he
          exact h6 e he
      rcases pass2_mem (firstKeys face1) (firstKeys face1) face1
          (fun c => face1.count c) c hc with hm | hm | hm
      · exact hface1mem c ((firstKeys_mem face1 c).mp hm)
      · rw [hm]; decide
      · exact hface1mem c hm
    · rw [if_neg h2] at hc
      exact h6 c hc
  · rw [if_neg h1] at hc
    exact h6 c hc

theorem face_repair_total_length_alphabet_witness :
    (fix_color_distribution ['U','U','U','U','R','R','R','B','B']).length = 9 ∧
      ∀ c ∈ fix_color_distribution ['U','U','U','U','R','R','R','B','B'],
        c ∈ expectedColors :=
  face_repair_total_length_alphabet _ (by decide) (by decide)

/-! ### Distribution bounds of the face repair -/

theorem mem_six_cases {mc : Char} (h : mc ∈ expectedColors) :
    mc = 'U' ∨ mc = 'R' ∨ mc = 'F' ∨ mc = 'D' ∨ mc = 'L' ∨ mc = 'B' := by
  simpa [expectedColors] using h

theorem filter_six_sum (mc : Char) (h : mc ∈ expectedColors) (f : Char → Nat) :
    ((expectedColors.filter (fun c => c != mc)).map f).sum + f mc = sumSix f := by
  rcases mem_six_cases h with h1 | h1 | h1 | h1 | h1 | h1 <;> subst h1
  · rw [show expectedColors.filter (fun c => c != 'U') = ['R','F','D','L','B'] from by decide]
    simp [sumSix, expectedColors]; omega
  · rw [show expectedColors.filter (fun c => c != 'R') = ['U','F','D','L','B'] from by decide]
    simp [sumSix, expectedColors]; omega
  · rw [show expectedColors.filter (fun c => c != 'F') = ['U','R','D','L','B'] from by decide]
    simp [sumSix, expectedColors]; omega
  · rw [show expectedColors.filter (fun c => c != 'D') = ['U','R','F','L','B'] from by decide]
    simp [sumSix, expectedColors]; omega
  · rw [show expectedColors.filter (fun c => c != 'L') = ['U','R','F','D','B'] from by decide]
    simp [sumSix, expectedColors]; omega
  · rw [show expectedColors.filter (fun c => c != 'B') = ['U','R','F','D','L'] from by decide]
    simp [sumSix, expectedColors]; omega

theorem filter_six_length (mc : Char) (h : mc ∈ expectedColors) :
    (expectedColors.filter (fun c => c != mc)).length = 5 := by
  rcases mem_six_cases h with h1 | h1 | h1 | h1 | h1 | h1 <;> subst h1 <;> decide

/-- Invariant analysis of the aggressive pass: the most common color drops
to exactly 3, the six-color total is preserved, other colors only grow and
never beyond 2 (unless they already were), and the counts stay
synchronised with the list. -/
theorem pass1_spec (mc : Char) (hmc : mc ∈ expectedColors) :
    ∀ (rem : List Char) (cnt : Char → Nat) (ex : Nat),
      sumSix cnt = 9 →
      cnt mc = 3 + ex →
      ex ≤ rem.count mc →
      (pass1 mc (expectedColors.filter (fun c => c != mc)) rem cnt ex).2 mc = 3 ∧
      sumSix (pass1 mc (expectedColors.filter (fun c => c != mc)) rem cnt ex).2 = 9 ∧
      (∀ c, c ≠ mc →
        cnt c ≤ (pass1 mc (expectedColors.filter (fun c => c != mc)) rem cnt ex).2 c ∧
        (pass1 mc (expectedColors.filter (fun c => c != mc)) rem cnt ex).2 c ≤ max (cnt c) 2) ∧
      (∀ c, (pass1 mc (expectedColors.filter (fun c => c != mc)) rem cnt ex).2 c + rem.count c
        = cnt c + (pass1 mc (expectedColors.filter (fun c => c != mc)) rem cnt ex).1.count c) := by
  intro rem
  induction rem with
  | nil =>
    intro cnt ex hsum hcnt hex
    have hex0 : ex = 0 := by simpa using hex
    subst hex0
    refine ⟨by simpa [pass1] using hcnt, hsum, ?_, ?_⟩
    · intro c _; constructor
      · simp [pass1]
      · simp [pass1, le_max_iff]
    · intro c; simp [pass1]
  | cons e rest ih =>
    intro cnt ex hsum hcnt hex
    by_cases hcond : e = mc ∧ 0 < ex
    · obtain ⟨het, hexpos⟩ := hcond
      rcases hf : (expectedColors.filter (fun c => c != mc)).find?
          (fun r => decide (cnt r < 2)) with _ | r
      · -- all five replacement colors already hold at least 2: impossible
        exfalso
        have hall : ∀ x ∈ expectedColors.filter (fun c => c != mc), 2 ≤ cnt x := by
          intro x hx
          have := List.find?_eq_none.mp hf x hx
          simp at this
          omega
        have hge := all_ge_sum (expectedColors.filter (fun c => c != mc)) cnt 2 hall
        rw [filter_six_length mc hmc] at hge
        have := filter_six_sum mc hmc cnt
        omega
      · have hrfil : r ∈ expectedColors.filter (fun c => c != mc) :=
          List.mem_of_find?_eq_some hf
        have hrlt : cnt r < 2 := by
          have := List.find?_some hf
          simpa using this
        have hrmc : r ≠ mc := by
          have := (List.mem_filter.mp hrfil).2
          simpa using this
        set cnt2 := upd (upd cnt r (cnt r + 1)) mc ((upd cnt r (cnt r + 1)) mc - 1) with hcnt2
        have hstep1 : (pass1 mc (expectedColors.filter (fun c => c != mc)) (e :: rest) cnt ex).1 =
            r :: (pass1 mc (expectedColors.filter (fun c => c != mc)) rest cnt2 (ex - 1)).1 := by
          rw [pass1, if_pos ⟨het, hexpos⟩]
          simp [hf, hcnt2]
        have hstep2 : (pass1 mc (expectedColors.filter (fun c => c != mc)) (e :: rest) cnt ex).2 =
            (pass1 mc (expectedColors.filter (fun c => c != mc)) rest cnt2 (ex - 1)).2 := by
          rw [pass1, if_pos ⟨het, hexpos⟩]
          simp [hf, hcnt2]
        have hc2mc : cnt2 mc = cnt mc - 1 := by
          rw [hcnt2, upd_self, upd_other _ _ _ (Ne.symm hrmc)]
        have hc2r : cnt2 r = cnt r + 1 := by
          rw [hcnt2, upd_other _ _ _ hrmc, upd_self]
        have hc2o : ∀ c, c ≠ mc → c ≠ r → cnt2 c = cnt c := by
          intro c h1 h2
          rw [hcnt2, upd_other _ _ _ h1, upd_other _ _ _ h2]
        have hr6 : r ∈ expectedColors := (List.mem_filter.mp hrfil).1
        have hsum1 : sumSix (upd cnt r (cnt r + 1)) + cnt r = sumSix cnt + (cnt r + 1) :=
          sum_map_upd expectedColors cnt (cnt r + 1) expectedColors_nodup hr6
        have hsum2 : sumSix cnt2 + (upd cnt r (cnt r + 1)) mc =
            sumSix (upd cnt r (cnt r + 1)) + ((upd cnt r (cnt r + 1)) mc - 1) :=
          sum_map_upd expectedColors (upd cnt r (cnt r + 1))
            ((upd cnt r (cnt r + 1)) mc - 1) expectedColors_nodup hmc
        have hupd_mc : (upd cnt r (cnt r + 1)) mc = cnt mc :=
          upd_other _ _ _ (Ne.symm hrmc)
        have hsum2' : sumSix cnt2 = 9 := by
          rw [hupd_mc] at hsum2
          omega
        have hc2eq : cnt2 mc = 3 + (ex - 1) := by omega
        have hexrest : ex - 1 ≤ rest.count mc := by
          rw [het, count_cons_char, if_pos rfl] at hex
          omega
        obtain ⟨ih1, ih2, ih3, ih4⟩ := ih cnt2 (ex - 1) hsum2' hc2eq hexrest
        rw [hstep1, hstep2]
        refine ⟨ih1, ih2, ?_, ?_⟩
        · intro c hcm
          obtain ⟨ihl, ihu⟩ := ih3 c hcm
          by_cases hcr : c = r
          · have hv : cnt2 c = cnt c + 1 := by rw [hcr, hc2r]
            rw [hv] at ihl ihu
            have hclt : cnt c < 2 := by rw [hcr]; exact hrlt
            constructor
            · omega
            · have h1 : max (cnt c + 1) 2 = 2 := by omega
              have h2 : max (cnt c) 2 = 2 := by omega
              rw [h1] at ihu; rw [h2]; exact ihu
          · rw [hc2o c hcm hcr] at ihl ihu
            exact ⟨ihl, ihu⟩
        · intro c
          have ih4c := ih4 c
          rw [count_cons_char c e, count_cons_char c r]
          by_cases hcm : c = mc
          · have hce : c = e := by rw [hcm, het]
            have hcr : ¬ c = r := fun h => hrmc (h.symm.trans hcm)
            rw [if_pos hce, if_neg hcr]
            have hv : cnt2 c = cnt c - 1 := by rw [hcm, hc2mc]
            have hc3 : cnt c = 3 + ex := by rw [hcm, hcnt]
            rw [hv] at ih4c
            omega
          · by_cases hcr : c = r
            · have hce : ¬ c = e := fun h => hcm (h.trans het)
              rw [if_neg hce, if_pos hcr]
              have hv : cnt2 c = cnt c + 1 := by rw [hcr, hc2r]
              rw [hv] at ih4c
              omega
            · have hce : ¬ c = e := fun h => hcm (h.trans het)
              rw [if_neg hce, if_neg hcr]
              rw [hc2o c hcm hcr] at ih4c
              omega
    · have hstep1 : (pass1 mc (expectedColors.filter (fun c => c != mc)) (e :: rest) cnt ex).1 =
          e :: (pass1 mc (expectedColors.filter (fun c => c != mc)) rest cnt ex).1 := by
        rw [pass1, if_neg hcond]
      have hstep2 : (pass1 mc (expectedColors.filter (fun c => c != mc)) (e :: rest) cnt ex).2 =
          (pass1 mc (expectedColors.filter (fun c => c != mc)) rest cnt ex).2 := by
        rw [pass1, if_neg hcond]
      have hexrest : ex ≤ rest.count mc := by
        rcases Decidable.not_and_iff_or_not.mp hcond with h | h
        · rw [count_cons_char] at hex
          rw [if_neg (fun hme : mc = e => h hme.symm)] at hex
          omega
        · omega
      obtain ⟨ih1, ih2, ih3, ih4⟩ := ih cnt ex hsum hcnt hexrest
      rw [hstep1, hstep2]
      refine ⟨ih1, ih2, ih3, ?_⟩
      intro c
      have ih4c := ih4 c
      rw [count_cons_char c e, count_cons_char c e]
      by_cases hce : c = e
      · rw [if_pos hce]; omega
      · rw [if_neg hce]; omega

/-- Invariant analysis of the final-check inner scan: while the over-count
persists the current minimum over the keys is a different color of count at
most 4, so every visited position is replaced; the color ends at exactly 4,
and every other color ends at most at `max` of its start and 5. -/
theorem pass2inner_spec (color : Char) (keys : List Char)
    (hkeys6 : ∀ k ∈ keys, k ∈ expectedColors) (hknd : keys.Nodup)
    (hk2 : 1 < keys.length) (hc6 : color ∈ expectedColors) :
    ∀ (rem : List Char) (f : Char → Nat) (ex : Nat),
      sumSix f = 9 →
      f color = 4 + ex →
      ex ≤ rem.count color →
      (pass2inner color keys rem f ex).2 color = 4 ∧
      sumSix (pass2inner color keys rem f ex).2 = 9 ∧
      (∀ c, c ≠ color → f c ≤ (pass2inner color keys rem f ex).2 c ∧
        (pass2inner color keys rem f ex).2 c ≤ max (f c) 5) ∧
      (∀ c, (pass2inner color keys rem f ex).2 c + rem.count c
        = f c + (pass2inner color keys rem f ex).1.count c) := by
  intro rem
  induction rem with
  | nil =>
    intro f ex hsum hcnt hex
    have hex0 : ex = 0 := by simpa using hex
    subst hex0
    refine ⟨by simpa [pass2inner] using hcnt, hsum, ?_, ?_⟩
    · intro c _; constructor
      · simp [pass2inner]
      · simp [pass2inner, le_max_iff]
    · intro c; simp [pass2inner]
  | cons e rest ih =>
    intro f ex hsum hcnt hex
    by_cases hcond : e = color ∧ 0 < ex
    · obtain ⟨het, hexpos⟩ := hcond
      -- the current minimum is a different color with count at most 4
      obtain ⟨k, hk, hkc⟩ := exists_other_mem hknd hk2
      have hk6 : k ∈ expectedColors := hkeys6 k hk
      have hk4 : f k ≤ 4 := by
        have := pair_le_sum expectedColors f expectedColors_nodup hc6 hk6 (Ne.symm hkc)
        unfold sumSix at hsum
        omega
      have hkeysne : keys ≠ [] := by
        intro h; rw [h] at hk; cases hk
      obtain ⟨hlc1, hlc2, hlc3⟩ := argminF_spec f keys hkeysne
      have hlcle : (argminF f keys).2 ≤ 4 := le_trans (hlc3 k hk) hk4
      have hlcc : (argminF f keys).1 ≠ color := by
        intro h
        rw [h] at hlc2
        omega
      set f2 := upd (upd f (argminF f keys).1 (f (argminF f keys).1 + 1)) color
        ((upd f (argminF f keys).1 (f (argminF f keys).1 + 1)) color - 1) with hf2
      have hstep1 : (pass2inner color keys (e :: rest) f ex).1 =
          (argminF f keys).1 :: (pass2inner color keys rest f2 (ex - 1)).1 := by
        rw [pass2inner, if_pos ⟨het, hexpos⟩]
        simp [hlcc, hf2]
      have hstep2 : (pass2inner color keys (e :: rest) f ex).2 =
          (pass2inner color keys rest f2 (ex - 1)).2 := by
        rw [pass2inner, if_pos ⟨het, hexpos⟩]
        simp [hlcc, hf2]
      have hf2c : f2 color = f color - 1 := by
        rw [hf2, upd_self, upd_other _ _ _ (Ne.symm hlcc)]
      have hf2lc : f2 (argminF f keys).1 = f (argminF f keys).1 + 1 := by
        rw [hf2, upd_other _ _ _ hlcc, upd_self]
      have hf2o : ∀ c, c ≠ color → c ≠ (argminF f keys).1 → f2 c = f c := by
        intro c h1 h2
        rw [hf2, upd_other _ _ _ h1, upd_other _ _ _ h2]
      have hlc6 : (argminF f keys).1 ∈ expectedColors := hkeys6 _ hlc1
      have hsum1 : sumSix (upd f (argminF f keys).1 (f (argminF f keys).1 + 1))
          + f (argminF f keys).1 = sumSix f + (f (argminF f keys).1 + 1) :=
        sum_map_upd expectedColors f (f (argminF f keys).1 + 1) expectedColors_nodup hlc6
      have hsum2 : sumSix f2 + (upd f (argminF f keys).1 (f (argminF f keys).1 + 1)) color =
          sumSix (upd f (argminF f keys).1 (f (argminF f keys).1 + 1))
            + ((upd f (argminF f keys).1 (f (argminF f keys).1 + 1)) color - 1) :=
        sum_map_upd expectedColors (upd f (argminF f keys).1 (f (argminF f keys).1 + 1))
          ((upd f (argminF f keys).1 (f (argminF f keys).1 + 1)) color - 1)
          expectedColors_nodup hc6
      have hupd_color : (upd f (argminF f keys).1 (f (argminF f keys).1 + 1)) color = f color :=
        upd_other _ _ _ (Ne.symm hlcc)
      have hsum2' : sumSix f2 = 9 := by
        rw [hupd_color] at hsum2
        omega
      have hf2eq : f2 color = 4 + (ex - 1) := by omega
      have hexrest : ex - 1 ≤ rest.count color := by
        rw [het, count_cons_char, if_pos rfl] at hex
        omega
      obtain ⟨ih1, ih2, ih3, ih4⟩ := ih f2 (ex - 1) hsum2' hf2eq hexrest
      rw [hstep1, hstep2]
      refine ⟨ih1, ih2, ?_, ?_⟩
      · intro c hcc
        obtain ⟨ihl, ihu⟩ := ih3 c hcc
        by_cases hclc : c = (argminF f keys).1
        · have hv : f2 c = f c + 1 := by rw [hclc, hf2lc]
          rw [hv] at ihl ihu
          have hc4 : f c ≤ 4 := by
            rw [hclc, ← hlc2]
            exact hlcle
          constructor
          · omega
          · have h1 : max (f c + 1) 5 = 5 := by omega
            have h2 : max (f c) 5 = 5 := by omega
            rw [h1] at ihu; rw [h2]; exact ihu
        · rw [hf2o c hcc hclc] at ihl ihu
          exact ⟨ihl, ihu⟩
      · intro c
        have ih4c := ih4 c
        rw [count_cons_char c e, count_cons_char c (argminF f keys).1]
        by_cases hcc : c = color
        · have hce : c = e := by rw [hcc, het]
          have hclc : ¬ c = (argminF f keys).1 := fun h => hlcc (h.symm.trans hcc)
          rw [if_pos hce, if_neg hclc]
          have hv : f2 c = f c - 1 := by rw [hcc, hf2c]
          have hc4 : f c = 4 + ex := by rw [hcc, hcnt]
          rw [hv] at ih4c
          omega
        · by_cases hclc : c = (argminF f keys).1
          · have hce : ¬ c = e := fun h => hcc (h.trans het)
            rw [if_neg hce, if_pos hclc]
            have hv : f2 c = f c + 1 := by rw [hclc, hf2lc]
            rw [hv] at ih4c
            omega
          · have hce : ¬ c = e := fun h => hcc (h.trans het)
            rw [if_neg hce, if_neg hclc]
            rw [hf2o c hcc hclc] at ih4c
            omega
    · have hstep1 : (pass2inner color keys (e :: rest) f ex).1 =
          e :: (pass2inner color keys rest f ex).1 := by
        rw [pass2inner, if_neg hcond]
      have hstep2 : (pass2inner color keys (e :: rest) f ex).2 =
          (pass2inner color keys rest f ex).2 := by
        rw [pass2inner, if_neg hcond]
      have hexrest : ex ≤ rest.count color := by
        rcases Decidable.not_and_iff_or_not.mp hcond with h | h
        · rw [count_cons_char] at hex
          rw [if_neg (fun hce : color = e => h hce.symm)] at hex
          omega
        · omega
      obtain ⟨ih1, ih2, ih3, ih4⟩ := ih f ex hsum hcnt hexrest
      rw [hstep1, hstep2]
      refine ⟨ih1, ih2, ih3, ?_⟩
      intro c
      have ih4c := ih4 c
      rw [count_cons_char c e, count_cons_char c e]
      by_cases hce : c = e
      · rw [if_pos hce]; omega
      · rw [if_neg hce]; omega

/-- Outer final-check invariant: colors outside the remaining key worklist
stay at 5 or below, so after the whole loop every one of the six colors is
bounded by 5. -/
theorem pass2_spec (keys : List Char)
    (hkeys6 : ∀ k ∈ keys, k ∈ expectedColors) (hknd : keys.Nodup)
    (hk2 : 1 < keys.length) :
    ∀ (ks lst : List Char) (f : Char → Nat),
      (∀ k ∈ ks, k ∈ expectedColors) →
      (∀ c, f c = lst.count c) →
      sumSix f = 9 →
      (∀ c ∈ expectedColors, c ∉ ks → f c ≤ 5) →
      (∀ c ∈ expectedColors, (pass2 keys ks lst f).2 c ≤ 5) ∧
      (∀ c, (pass2 keys ks lst f).2 c = (pass2 keys ks lst f).1.count c) := by
  intro ks
  induction ks with
  | nil =>
    intro lst f _ hsync _ hinv
    refine ⟨?_, ?_⟩
    · intro c hc
      simpa [pass2] using hinv c hc (by simp)
    · intro c; simpa [pass2] using hsync c
  | cons color ks ih =>
    intro lst f hks6 hsync hsum hinv
    have hc6 : color ∈ expectedColors := hks6 color (by simp)
    have hks6' : ∀ k ∈ ks, k ∈ expectedColors := fun k hk => hks6 k (by simp [hk])
    by_cases h5 : 5 < f color
    · have hstep1 : (pass2 keys (color :: ks) lst f).1 =
          (pass2 keys ks (pass2inner color keys lst f (f color - 4)).1
            (pass2inner color keys lst f (f color - 4)).2).1 := by
        rw [pass2]; simp only [if_pos h5]
      have hstep2 : (pass2 keys (color :: ks) lst f).2 =
          (pass2 keys ks (pass2inner color keys lst f (f color - 4)).1
            (pass2inner color keys lst f (f color - 4)).2).2 := by
        rw [pass2]; simp only [if_pos h5]
      obtain ⟨q1, q2, q3, q4⟩ := pass2inner_spec color keys hkeys6 hknd hk2 hc6
        lst f (f color - 4) hsum (by omega) (by rw [← hsync color]; omega)
      have hsync' : ∀ c, (pass2inner color keys lst f (f color - 4)).2 c =
          (pass2inner color keys lst f (f color - 4)).1.count c := by
        intro c
        have := q4 c
        have := hsync c
        omega
      have hinv' : ∀ c ∈ expectedColors, c ∉ ks →
          (pass2inner color keys lst f (f color - 4)).2 c ≤ 5 := by
        intro c hc hcks
        by_cases hcc : c = color
        · rw [hcc, q1]; omega
        · obtain ⟨_, hu⟩ := q3 c hcc
          have : f c ≤ 5 := hinv c hc (by simp [hcks, hcc])
          have : max (f c) 5 = 5 := by omega
          omega
      obtain ⟨j1, j2⟩ := ih (pass2inner color keys lst f (f color - 4)).1
        (pass2inner color keys lst f (f color - 4)).2 hks6' hsync' q2 hinv'
      rw [hstep1, hstep2]
      exact ⟨j1, j2⟩
    · have hstep1 : (pass2 keys (color :: ks) lst f).1 = (pass2 keys ks lst f).1 := by
        rw [pass2]; simp only [if_neg h5]
      have hstep2 : (pass2 keys (color :: ks) lst f).2 = (pass2 keys ks lst f).2 := by
        rw [pass2]; simp only [if_neg h5]
      have hinv' : ∀ c ∈ expectedColors, c ∉ ks → f c ≤ 5 := by
        intro c hc hcks
        by_cases hcc : c = color
        · rw [hcc]; omega
        · exact hinv c hc (by simp [hcks, hcc])
      obtain ⟨j1, j2⟩ := ih lst f hks6' hsync hsum hinv'
      rw [hstep1, hstep2]
      exact ⟨j1, j2⟩

/-- The final-check loop bounds every color by 5 whenever it runs on a
9-symbol face over the six colors with at least two distinct symbols. -/
theorem pass2_all_bound (face1 : List Char) (hlen : face1.length = 9)
    (hsix : ∀ c ∈ face1, c ∈ expectedColors)
    (hk1 : 1 < (firstKeys face1).length) :
    ∀ c, (pass2 (firstKeys face1) (firstKeys face1) face1
      (fun c => face1.count c)).1.count c ≤ 5 := by
  have hkeys6 : ∀ k ∈ firstKeys face1, k ∈ expectedColors :=
    fun k hk => hsix k ((firstKeys_mem _ _).mp hk)
  obtain ⟨j1, j2⟩ := pass2_spec (firstKeys face1) hkeys6 (firstKeys_nodup face1) hk1
    (firstKeys face1) face1 (fun c => face1.count c) hkeys6 (fun c => rfl)
    (by rw [sumSix_of_allsix face1 hsix, hlen])
    (by
      intro c _ hck
      have : c ∉ face1 := fun h => hck ((firstKeys_mem _ _).mpr h)
      simp [count_zero_of_not_mem this])
  intro c
  by_cases hc : c ∈ expectedColors
  · rw [← j2 c]
    exact j1 c hc
  · have : c ∉ (pass2 (firstKeys face1) (firstKeys face1) face1
        (fun c => face1.count c)).1 := by
      intro hmem
      rcases pass2_mem (firstKeys face1) (firstKeys face1) face1
          (fun c => face1.count c) c hmem with h | h | h
      · exact hc (hkeys6 c h)
      · exact hc (by rw [h]; decide)
      · exact hc (hsix c h)
    simp [count_zero_of_not_mem this]

/-- C7 counterexample: a face of six `U` and three `R` has more than one
distinct symbol, yet `fix_color_distribution` leaves it unchanged and `U`
still occurs six times (more than five): the repair only triggers when the
most common count exceeds six. -/
theorem face_repair_bound_counterexample :
    (['U','U','U','U','U','U','R','R','R'] : List Char).length = 9 ∧
    1 < (firstKeys ['U','U','U','U','U','U','R','R','R']).length ∧
    fix_color_distribution ['U','U','U','U','U','U','R','R','R'] =
      ['U','U','U','U','U','U','R','R','R'] ∧
    5 < (fix_color_distribution ['U','U','U','U','U','U','R','R','R']).count 'U' := by
  decide

/-- C7 amended: on a 9-symbol face over the six colors with more than one
distinct symbol IN WHICH SOME SYMBOL OCCURS MORE THAN SIX TIMES (the
repair's trigger condition), no symbol occurs more than five times after
`fix_color_distribution`. -/
theorem face_repair_bound_after_trigger (face : List Char)
    (h9 : face.length = 9) (h6 : ∀ c ∈ face, c ∈ expectedColors)
    (hk : 1 < (firstKeys face).length)
    (hbig : ∃ c, 6 < face.count c) :
    ∀ c, (fix_color_distribution face).count c ≤ 5 := by
  obtain ⟨c0, hc0⟩ := hbig
  have hc0f : c0 ∈ face := mem_of_count_pos (by omega)
  have hc0k : c0 ∈ firstKeys face := (firstKeys_mem face c0).mpr hc0f
  have hkeysne : firstKeys face ≠ [] := by
    intro h; rw [h] at hc0k; cases hc0k
  obtain ⟨hm1, hm2, hm3⟩ := argmaxF_spec (fun c => face.count c) (firstKeys face) hkeysne
  have hm2' : (argmaxF (fun c => face.count c) (firstKeys face)).2
      = face.count (argmaxF (fun c => face.count c) (firstKeys face)).1 := hm2
  have hmcbig : 6 < (argmaxF (fun c => face.count c) (firstKeys face)).2 :=
    lt_of_lt_of_le hc0 (hm3 c0 hc0k)
  have hmc1six : (argmaxF (fun c => face.count c) (firstKeys face)).1 ∈ expectedColors :=
    h6 _ ((firstKeys_mem _ _).mp hm1)
  have hsum0 : sumSix (fun c => face.count c) = 9 := by
    rw [sumSix_of_allsix face h6, h9]
  set face1 :=
    (if 7 < (argmaxF (fun c => face.count c) (firstKeys face)).2 then
      (pass1 (argmaxF (fun c => face.count c) (firstKeys face)).1
        (expectedColors.filter
          (fun c => c != (argmaxF (fun c => face.count c) (firstKeys face)).1))
        face (fun c => face.count c)
        ((argmaxF (fun c => face.count c) (firstKeys face)).2 - 3)).1
    else face) with hface1
  have hfix : fix_color_distribution face =
      (pass2 (firstKeys face1) (firstKeys face1) face1 (fun c => face1.count c)).1 := by
    unfold fix_color_distribution
    rw [if_pos hk, if_pos hmcbig]
  have hface1len : face1.length = 9 := by
    rw [hface1]
    by_cases h7 : 7 < (argmaxF (fun c => face.count c) (firstKeys face)).2
    · rw [if_pos h7, pass1_length]; exact h9
    · rw [if_neg h7]; exact h9
  have hface1six : ∀ c ∈ face1, c ∈ expectedColors := by
    intro c hc
    rw [hface1] at hc
    by_cases h7 : 7 < (argmaxF (fun c => face.count c) (firstKeys face)).2
    · rw [if_pos h7] at hc
      rcases pass1_mem _ _ face (fun c => face.count c) _ c hc with h | h
      · exact (List.mem_filter.mp h).1
      · exact h6 c h
    · rw [if_neg h7] at hc
      exact h6 c hc
  have hface1keys : 1 < (firstKeys face1).length := by
    by_cases h7 : 7 < (argmaxF (fun c => face.count c) (firstKeys face)).2
    · -- after the aggressive pass the most common color still occurs (count 3)
      -- and some other original key was only ever incremented
      obtain ⟨q1, q2, q3, q4⟩ := pass1_spec
        (argmaxF (fun c => face.count c) (firstKeys face)).1 hmc1six
        face (fun c => face.count c)
        ((argmaxF (fun c => face.count c) (firstKeys face)).2 - 3)
        hsum0
        (by
          show face.count (argmaxF (fun c => face.count c) (firstKeys face)).1
            = 3 + ((argmaxF (fun c => face.count c) (firstKeys face)).2 - 3)
          rw [← hm2']
          omega)
        (by
          show (argmaxF (fun c => face.count c) (firstKeys face)).2 - 3
            ≤ List.count (argmaxF (fun c => face.count c) (firstKeys face)).1 face
          rw [show List.count (argmaxF (fun c => face.count c) (firstKeys face)).1 face
            = face.count (argmaxF (fun c => face.count c) (firstKeys face)).1 from rfl,
            ← hm2']
          omega)
      have hsync1 : ∀ c, (pass1 (argmaxF (fun c => face.count c) (firstKeys face)).1
          (expectedColors.filter
            (fun c => c != (argmaxF (fun c => face.count c) (firstKeys face)).1))
          face (fun c => face.count c)
          ((argmaxF (fun c => face.count c) (firstKeys face)).2 - 3)).2 c
          = face1.count c := by
        intro c
        have := q4 c
        rw [hface1, if_pos h7]
        omega
      obtain ⟨k, hkmem, hkne⟩ := exists_other_mem (firstKeys_nodup face) hk
      have hkface : k ∈ face := (firstKeys_mem _ _).mp hkmem
      have hkcount : 1 ≤ face.count k := by
        have := mem_of_count_pos (s := face) (c := k)
        by_contra h
        have h0 : face.count k = 0 := by omega
        rw [List.count_eq_zero] at h0
        exact h0 hkface
      have hk1 : k ∈ face1 := by
        apply mem_of_count_pos
        rw [← hsync1 k]
        have := (q3 k hkne).1
        omega
      have hmc1 : (argmaxF (fun c => face.count c) (firstKeys face)).1 ∈ face1 := by
        apply mem_of_count_pos
        rw [← hsync1]
        omega
      exact two_mem_one_lt_length ((firstKeys_mem _ _).mpr hmc1)
        ((firstKeys_mem _ _).mpr hk1) (Ne.symm hkne)
    · have : face1 = face := by rw [hface1, if_neg h7]
      rw [this]
      exact hk
  rw [hfix]
  exact pass2_all_bound face1 hface1len hface1six hface1keys

theorem face_repair_bound_after_trigger_witness :
    (fix_color_distribution ['R','R','R','R','R','R','R','U','F']).count 'R' ≤ 5 ∧
    (fix_color_distribution ['R','R','R','R','R','R','R','U','F']).count 'U' ≤ 5 ∧
    (fix_color_distribution ['R','R','R','R','R','R','R','U','F']).count 'F' ≤ 5 :=
  ⟨face_repair_bound_after_trigger ['R','R','R','R','R','R','R','U','F']
      (by decide) (by decide) (by decide) ⟨'R', by decide⟩ 'R',
   face_repair_bound_after_trigger ['R','R','R','R','R','R','R','U','F']
      (by decide) (by decide) (by decide) ⟨'R', by decide⟩ 'U',
   face_repair_bound_after_trigger ['R','R','R','R','R','R','R','U','F']
      (by decide) (by decide) (by decide) ⟨'R', by decide⟩ 'F'⟩

/-! ### Scenario C: a face of eight `R` and one `U` -/

theorem two_count_le (a b : Char) (hab : a ≠ b) :
    ∀ l : List Char, l.count a + l.count b ≤ l.length := by
  intro l
  induction l with
  | nil => simp
  | cons c rest ih =>
    rw [count_cons_char, count_cons_char]
    simp only [List.length_cons]
    by_cases hac : a = c
    · rw [if_pos hac, if_neg (fun hbc : b = c => hab (hac.trans hbc.symm))]
      omega
    · rw [if_neg hac]
      by_cases hbc : b = c
      · rw [if_pos hbc]; omega
      · rw [if_neg hbc]; omega

theorem count_pair_all (l : List Char)
    (h : l.count 'R' + l.count 'U' = l.length) :
    ∀ e ∈ l, e = 'R' ∨ e = 'U' := by
  induction l with
  | nil => intro e he; cases he
  | cons a rest ih =>
    rw [count_cons_char, count_cons_char] at h
    simp only [List.length_cons] at h
    intro e he
    by_cases haRU : a = 'R' ∨ a = 'U'
    · rcases List.mem_cons.mp he with h1 | h1
      · exact h1 ▸ haRU
      · refine ih ?_ e h1
        have hbound := two_count_le 'R' 'U' (by decide) rest
        by_cases h2 : ('R' : Char) = a
        · rw [if_pos h2] at h
          rw [if_neg (fun h3 : ('U' : Char) = a => by
            rw [← h2] at h3; exact absurd h3 (by decide))] at h
          omega
        · rw [if_neg h2] at h
          by_cases h3 : ('U' : Char) = a
          · rw [if_pos h3] at h; omega
          · rw [if_neg h3] at h; omega
    · exfalso
      have h2 : ¬ ('R' : Char) = a := fun hh => haRU (Or.inl hh.symm)
      have h3 : ¬ ('U' : Char) = a := fun hh => haRU (Or.inr hh.symm)
      rw [if_neg h2, if_neg h3] at h
      have hbound := two_count_le 'R' 'U' (by decide) rest
      omega

theorem replicate_of_no_U (l : List Char) (hall : ∀ e ∈ l, e = 'R' ∨ e = 'U')
    (h0 : l.count 'U' = 0) : l = List.replicate l.length 'R' := by
  induction l with
  | nil => rfl
  | cons a rest ih =>
    rw [count_cons_char] at h0
    have ha : a = 'R' := by
      rcases hall a (by simp) with h | h
      · exact h
      · rw [h, if_pos rfl] at h0; omega
    subst ha
    have h0' : rest.count 'U' = 0 := by
      rw [if_neg (by decide : ¬ ('U' : Char) = 'R')] at h0
      omega
    have := ih (fun e he => hall e (by simp [he])) h0'
    simp only [List.length_cons, List.replicate_succ]
    rw [← this]

theorem split_single_U (l : List Char) (hall : ∀ e ∈ l, e = 'R' ∨ e = 'U')
    (h1 : l.count 'U' = 1) :
    ∃ k m, l = List.replicate k 'R' ++ 'U' :: List.replicate m 'R'
      ∧ k + m + 1 = l.length := by
  induction l with
  | nil => simp at h1
  | cons a rest ih =>
    rw [count_cons_char] at h1
    rcases hall a (by simp) with ha | ha
    · subst ha
      have h1' : rest.count 'U' = 1 := by
        rw [if_neg (by decide : ¬ ('U' : Char) = 'R')] at h1
        omega
      obtain ⟨k, m, heq, hlen⟩ := ih (fun e he => hall e (by simp [he])) h1'
      refine ⟨k + 1, m, ?_, by simp only [List.length_cons]; omega⟩
      rw [List.replicate_succ, List.cons_append, ← heq]
    · subst ha
      have h0 : rest.count 'U' = 0 := by
        rw [if_pos rfl] at h1
        omega
      have hrep := replicate_of_no_U rest (fun e he => hall e (by simp [he])) h0
      refine ⟨0, rest.length, ?_, by simp⟩
      rw [← hrep]
      simp

/-- C8: on any face of eight `R` and one `U`, `fix_color_distribution`
reduces `R` below seven, and each position whose `R` was replaced holds a
symbol whose final count is at most 2 (so each replacement target was
counted below 2 at the moment of the replacement, counts of targets being
only ever incremented by the pass). -/
theorem face_repair_eightR_oneU (face : List Char)
    (h9 : face.length = 9) (hR : face.count 'R' = 8) (hU : face.count 'U' = 1) :
    (fix_color_distribution face).count 'R' < 7 ∧
    ∀ i, i < 9 →
      face.getD i '-' = 'R' →
      (fix_color_distribution face).getD i '-' ≠ 'R' →
      (fix_color_distribution face).count ((fix_color_distribution face).getD i '-') ≤ 2 := by
  have hall : ∀ e ∈ face, e = 'R' ∨ e = 'U' := count_pair_all face (by omega)
  obtain ⟨k, m, hface, hkm⟩ := split_single_U face hall hU
  subst hface
  have hm : m = 8 - k := by omega
  subst hm
  have hk8 : k ≤ 8 := by omega
  interval_cases k <;> decide

theorem face_repair_eightR_oneU_witness :
    (fix_color_distribution ('U' :: List.replicate 8 'R')).count 'R' < 7 ∧
    ∀ i, i < 9 →
      ('U' :: List.replicate 8 'R').getD i '-' = 'R' →
      (fix_color_distribution ('U' :: List.replicate 8 'R')).getD i '-' ≠ 'R' →
      (fix_color_distribution ('U' :: List.replicate 8 'R')).count
        ((fix_color_distribution ('U' :: List.replicate 8 'R')).getD i '-') ≤ 2 :=
  face_repair_eightR_oneU ('U' :: List.replicate 8 'R')
    (by decide) (by decide) (by decide)

/-! ## StickerClassifier: the per-sticker loop of `recognize_face_colors`
    (color_recognition.py 37-63) with `COLOR_RANGES` (lines 4-11) and
    `analyze_color_fallback` (lines 85-129).  The sample and the score
    arithmetic are embedded over `ℚ`, the exact field containing the table
    constants and every sample value. -/

/-- An HSV triple. -/
abbrev Q3 : Type := ℚ × ℚ × ℚ

/-- `COLOR_RANGES` (color_recognition.py 4-11), in source (insertion)
order. -/
def COLOR_RANGES : List (Char × Q3 × Q3) :=
  [('U', ((0, 0, 180), (180, 30, 255))),
   ('R', ((0, 120, 70), (10, 255, 255))),
   ('F', ((40, 120, 70), (80, 255, 255))),
   ('D', ((15, 120, 70), (35, 255, 255))),
   ('L', ((5, 120, 70), (20, 255, 255))),
   ('B', ((90, 120, 70), (130, 255, 255)))]

/-- `cv2.inRange` on a single pixel: every channel within the bounds,
inclusive. -/
def inRangeB (lo hi s : Q3) : Bool :=
  decide (lo.1 ≤ s.1 ∧ s.1 ≤ hi.1 ∧ lo.2.1 ≤ s.2.1 ∧ s.2.1 ≤ hi.2.1 ∧
    lo.2.2 ≤ s.2.2 ∧ s.2.2 ≤ hi.2.2)

/-- `min(abs(h - ch), 180 - abs(h - ch))` (color_recognition.py 51). -/
def circHueDiff (a b : ℚ) : ℚ := min |a - b| (180 - |a - b|)

/-- The match score (color_recognition.py 47-55): reciprocal of one plus
the normalised distances from the range centre. -/
def scoreQ (lo hi s : Q3) : ℚ :=
  1 / (1 + circHueDiff s.1 ((lo.1 + hi.1) / 2) / 180
    + |s.2.1 - (lo.2.1 + hi.2.1) / 2| / 255
    + |s.2.2 - (lo.2.2 + hi.2.2) / 2| / 255)

/-- Whether the sample lies in a table entry's range. -/
def entryIn (e : Char × Q3 × Q3) (s : Q3) : Bool := inRangeB e.2.1 e.2.2 s

/-- A table entry's match score for the sample. -/
def entryScore (e : Char × Q3 × Q3) (s : Q3) : ℚ := scoreQ e.2.1 e.2.2 s

/-- One iteration of the classification loop (color_recognition.py 40-59):
the `matched_color`/`best_match_score` pair is replaced only on a strictly
greater score of an in-range entry. -/
def stepBest (s : Q3) (best : Option Char × ℚ) (e : Char × Q3 × Q3) : Option Char × ℚ :=
  if entryIn e s then
    if best.2 < entryScore e s then (some e.1, entryScore e s) else best
  else best

/-- The classification loop over the whole table, starting from
`matched_color = None`, `best_match_score = 0`. -/
def bestMatch (s : Q3) : Option Char × ℚ := COLOR_RANGES.foldl (stepBest s) (none, 0)

/-- `analyze_color_fallback` (color_recognition.py 85-129). -/
def analyze_color_fallback (hsv : Q3) : Char :=
  let h := hsv.1
  let sa := hsv.2.1
  let v := hsv.2.2
  if sa < 50 then 'U'
  else if 200 < v then
    (if h < 15 ∨ 165 < h then 'R'
     else if 15 < h ∧ h < 35 then 'D'
     else 'U')
  else if 40 < sa ∧ sa < 120 then
    (if h < 15 ∨ 165 < h then 'R'
     else if 15 < h ∧ h < 35 then 'D'
     else if 35 < h ∧ h < 70 then 'F'
     else if 70 < h ∧ h < 130 then 'B'
     else if 130 < h ∧ h < 165 then 'L'
     else 'U')
  else if 120 < sa then
    (if h < 10 ∨ 170 < h then 'R'
     else if 10 < h ∧ h < 30 then 'L'
     else if 30 < h ∧ h < 80 then 'F'
     else if 80 < h ∧ h < 130 then 'B'
     else if 130 < h ∧ h < 170 then 'R'
     else 'U')
  else 'U'

/-- The per-sticker classification: the best in-range match when one
exists, otherwise the fallback decision tree (color_recognition.py 61-63). -/
def classifySticker (s : Q3) : Char :=
  match (bestMatch s).1 with
  | some c => c
  | none => analyze_color_fallback s

/-! ### Tie-break analysis of the classification fold -/

theorem table_hue_bounds :
    ∀ e ∈ COLOR_RANGES, 0 ≤ e.2.1.1 ∧ e.2.2.1 ≤ 180 := by
  intro e he
  fin_cases he <;> constructor <;> norm_num

theorem score_pos (e : Char × Q3 × Q3) (s : Q3)
    (hin : entryIn e s = true) (h0 : 0 ≤ e.2.1.1) (h180 : e.2.2.1 ≤ 180) :
    0 < entryScore e s := by
  unfold entryIn inRangeB at hin
  rw [decide_eq_true_iff] at hin
  obtain ⟨ha, hb, hc, hd, he', hf⟩ := hin
  unfold entryScore scoreQ
  have hs1a : 0 ≤ s.1 := le_trans h0 ha
  have hs1b : s.1 ≤ 180 := le_trans hb h180
  have hcha : 0 ≤ (e.2.1.1 + e.2.2.1) / 2 := by
    have : e.2.1.1 ≤ e.2.2.1 := le_trans ha hb
    linarith
  have hchb : (e.2.1.1 + e.2.2.1) / 2 ≤ 180 := by
    have : e.2.1.1 ≤ e.2.2.1 := le_trans ha hb
    linarith
  have habs : |s.1 - (e.2.1.1 + e.2.2.1) / 2| ≤ 180 := by
    rw [abs_le]
    constructor <;> linarith
  have hhue : 0 ≤ circHueDiff s.1 ((e.2.1.1 + e.2.2.1) / 2) := by
    unfold circHueDiff
    exact le_min (abs_nonneg _) (by linarith)
  have hterm1 : 0 ≤ circHueDiff s.1 ((e.2.1.1 + e.2.2.1) / 2) / 180 := by positivity
  have hterm2 : 0 ≤ |s.2.1 - (e.2.1.2.1 + e.2.2.2.1) / 2| / 255 := by positivity
  have hterm3 : 0 ≤ |s.2.2 - (e.2.1.2.2 + e.2.2.2.2) / 2| / 255 := by positivity
  apply one_div_pos.mpr
  linarith

theorem fold_lt (s : Q3) :
    ∀ (l : List (Char × Q3 × Q3)) (acc : Option Char × ℚ) (T : ℚ),
      acc.2 < T →
      (∀ e ∈ l, entryIn e s = true → entryScore e s < T) →
      (l.foldl (stepBest s) acc).2 < T := by
  intro l
  induction l with
  | nil => intro acc T h _; simpa using h
  | cons e rest ih =>
    intro acc T h hall
    rw [List.foldl_cons]
    apply ih
    · unfold stepBest
      by_cases hin : entryIn e s
      · rw [if_pos hin]
        by_cases hbt : acc.2 < entryScore e s
        · rw [if_pos hbt]
          exact hall e (by simp) hin
        · rw [if_neg hbt]; exact h
      · rw [if_neg hin]; exact h
    · intro x hx hinx
      exact hall x (by simp [hx]) hinx

theorem fold_keep (s : Q3) :
    ∀ (l : List (Char × Q3 × Q3)) (c : Char) (v : ℚ),
      (∀ e ∈ l, entryIn e s = true → entryScore e s ≤ v) →
      l.foldl (stepBest s) (some c, v) = (some c, v) := by
  intro l
  induction l with
  | nil => intro c v _; rfl
  | cons e rest ih =>
    intro c v hall
    rw [List.foldl_cons]
    have hstep : stepBest s (some c, v) e = (some c, v) := by
      unfold stepBest
      by_cases hin : entryIn e s
      · rw [if_pos hin]
        have := hall e (by simp) hin
        rw [if_neg (by simpa using not_lt.mpr this)]
      · rw [if_neg hin]
    rw [hstep]
    exact ih c v (fun x hx hinx => hall x (by simp [hx]) hinx)

theorem dropSplit {α : Type} :
    ∀ (l : List α) (i : Nat) (h : i < l.length),
      l.drop i = l.get ⟨i, h⟩ :: l.drop (i + 1) := by
  intro l
  induction l with
  | nil => intro i h; simp at h
  | cons a rest ih =>
    intro i h
    cases i with
    | zero => simp
    | succ j =>
      have hj : j < rest.length := by simpa using h
      simp only [List.drop_succ_cons, List.get_cons_succ]
      exact ih j hj

theorem mem_take_idx {α : Type} :
    ∀ (l : List α) (n : Nat) (e : α), e ∈ l.take n →
      ∃ k, ∃ hk : k < l.length, k < n ∧ l.get ⟨k, hk⟩ = e := by
  intro l
  induction l with
  | nil => intro n e he; simp at he
  | cons a rest ih =>
    intro n e he
    cases n with
    | zero => simp at he
    | succ m =>
      rw [List.take_succ_cons] at he
      rcases List.mem_cons.mp he with h1 | h1
      · exact ⟨0, by simp, by omega, by simp [h1.symm]⟩
      · obtain ⟨k, hk, hkn, hke⟩ := ih m e h1
        exact ⟨k + 1, by simpa using hk, by omega, by simpa using hke⟩

theorem mem_drop_idx {α : Type} :
    ∀ (l : List α) (n : Nat) (e : α), e ∈ l.drop n →
      ∃ k, ∃ hk : k < l.length, n ≤ k ∧ l.get ⟨k, hk⟩ = e := by
  intro l
  induction l with
  | nil => intro n e he; simp at he
  | cons a rest ih =>
    intro n e he
    cases n with
    | zero =>
      rw [List.drop_zero] at he
      rcases List.mem_cons.mp he with h1 | h1
      · exact ⟨0, by simp, by omega, by simp [h1.symm]⟩
      · obtain ⟨k, hk, _, hke⟩ := ih 0 e (by simpa using h1)
        exact ⟨k + 1, by simpa using hk, by omega, by simpa using hke⟩
    | succ m =>
      rw [List.drop_succ_cons] at he
      obtain ⟨k, hk, hkn, hke⟩ := ih m e he
      exact ⟨k + 1, by simpa using hk, by omega, by simpa using hke⟩

/-- C5: when the sample is in range of two colors with identical match
scores (the earlier one maximal among all in-range scores and earliest
among those attaining it), the classifier returns the earlier color of the
fixed iteration order `U,R,F,D,L,B`: a later entry displaces the current
best only on a strictly greater score. -/
theorem classifier_tie_prefers_earlier (s : Q3)
    (i j : Fin COLOR_RANGES.length) (hij : (i : Nat) < (j : Nat))
    (hi : entryIn (COLOR_RANGES.get i) s = true)
    (hj : entryIn (COLOR_RANGES.get j) s = true)
    (heq : entryScore (COLOR_RANGES.get i) s = entryScore (COLOR_RANGES.get j) s)
    (hmax : ∀ k : Fin COLOR_RANGES.length, entryIn (COLOR_RANGES.get k) s = true →
      entryScore (COLOR_RANGES.get k) s ≤ entryScore (COLOR_RANGES.get i) s)
    (hfirst : ∀ k : Fin COLOR_RANGES.length, entryIn (COLOR_RANGES.get k) s = true →
      entryScore (COLOR_RANGES.get k) s = entryScore (COLOR_RANGES.get i) s →
      (i : Nat) ≤ (k : Nat)) :
    classifySticker s = (COLOR_RANGES.get i).1 := by
  have hbm : bestMatch s = (some (COLOR_RANGES.get i).1, entryScore (COLOR_RANGES.get i) s) := by
    unfold bestMatch
    have hsplit : COLOR_RANGES
        = COLOR_RANGES.take (i : Nat)
          ++ COLOR_RANGES.get i :: COLOR_RANGES.drop ((i : Nat) + 1) := by
      rw [← dropSplit COLOR_RANGES (i : Nat) i.isLt]
      exact (List.take_append_drop (i : Nat) COLOR_RANGES).symm
    conv_lhs => rw [hsplit]
    rw [List.foldl_append, List.foldl_cons]
    have hpos : 0 < entryScore (COLOR_RANGES.get i) s := by
      obtain ⟨h0, h180⟩ := table_hue_bounds (COLOR_RANGES.get i) (COLOR_RANGES.get_mem _ _)
      exact score_pos _ s hi h0 h180
    have hacc1 : (List.foldl (stepBest s) (none, 0) (COLOR_RANGES.take (i : Nat))).2
        < entryScore (COLOR_RANGES.get i) s := by
      apply fold_lt
      · simpa using hpos
      · intro e he hin
        obtain ⟨k, hk, hki, hke⟩ := mem_take_idx COLOR_RANGES (i : Nat) e he
        have hle := hmax ⟨k, hk⟩ (hke ▸ hin)
        have hne : entryScore (COLOR_RANGES.get ⟨k, hk⟩) s
            ≠ entryScore (COLOR_RANGES.get i) s := by
          intro hcontra
          have := hfirst ⟨k, hk⟩ (hke ▸ hin) hcontra
          simp at this
          omega
        rw [← hke]
        exact lt_of_le_of_ne hle hne
    have hupdate : ∀ (acc : Option Char × ℚ) (e : Char × Q3 × Q3),
        entryIn e s = true → acc.2 < entryScore e s →
        stepBest s acc e = (some e.1, entryScore e s) := by
      intro acc e hin hlt
      unfold stepBest
      rw [if_pos hin, if_pos hlt]
    rw [hupdate _ _ hi hacc1]
    apply fold_keep
    intro e he hin
    obtain ⟨k, hk, _, hke⟩ := mem_drop_idx COLOR_RANGES ((i : Nat) + 1) e he
    rw [← hke]
    exact hmax ⟨k, hk⟩ (hke ▸ hin)
  unfold classifySticker
  rw [hbm]

theorem classifier_tie_prefers_earlier_witness :
    classifySticker ((35 : ℚ)/4, 150, 100) = 'R' := by
  have hlen : COLOR_RANGES.length = 6 := by simp [COLOR_RANGES]
  have g0 : COLOR_RANGES.get ⟨0, by omega⟩ = ('U', ((0, 0, 180), (180, 30, 255))) := rfl
  have g1 : COLOR_RANGES.get ⟨1, by omega⟩ = ('R', ((0, 120, 70), (10, 255, 255))) := rfl
  have g2 : COLOR_RANGES.get ⟨2, by omega⟩ = ('F', ((40, 120, 70), (80, 255, 255))) := rfl
  have g3 : COLOR_RANGES.get ⟨3, by omega⟩ = ('D', ((15, 120, 70), (35, 255, 255))) := rfl
  have g4 : COLOR_RANGES.get ⟨4, by omega⟩ = ('L', ((5, 120, 70), (20, 255, 255))) := rfl
  have g5 : COLOR_RANGES.get ⟨5, by omega⟩ = ('B', ((90, 120, 70), (130, 255, 255))) := rfl
  refine classifier_tie_prefers_earlier ((35 : ℚ)/4, 150, 100)
    ⟨1, by omega⟩ ⟨4, by omega⟩ (by norm_num) ?_ ?_ ?_ ?_ ?_
  · rw [g1]
    simp only [entryIn, inRangeB, decide_eq_true_eq]
    norm_num
  · rw [g4]
    simp only [entryIn, inRangeB, decide_eq_true_eq]
    norm_num
  · rw [g1, g4]
    simp only [entryScore, scoreQ, circHueDiff]
    norm_num
  · intro k
    fin_cases k <;>
      simp only [g0, g1, g2, g3, g4, g5, entryIn, inRangeB, entryScore, scoreQ, circHueDiff,
        decide_eq_true_eq]
    case «0» => intro hin; exact absurd hin (by norm_num)
    case «1» => intro hin; norm_num
    case «2» => intro hin; exact absurd hin (by norm_num)
    case «3» => intro hin; exact absurd hin (by norm_num)
    case «4» => intro hin; norm_num
    case «5» => intro hin; exact absurd hin (by norm_num)
  · intro k
    fin_cases k <;>
      simp only [g0, g1, g2, g3, g4, g5, entryIn, inRangeB, entryScore, scoreQ, circHueDiff,
        decide_eq_true_eq]
    case «0» => intro hin heq2; exact absurd hin (by norm_num)
    case «1» => intro hin heq2; norm_num
    case «2» => intro hin heq2; exact absurd hin (by norm_num)
    case «3» => intro hin heq2; exact absurd hin (by norm_num)
    case «4» => intro hin heq2; norm_num
    case «5» => intro hin heq2; exact absurd hin (by norm_num)

/-! ## CubeAssembler: `solve_cube_from_images` (solver.py 38-53) and the
    error behaviour of `recognize_face_colors` (color_recognition.py 13-16).
    Image decoding (`cv2.imread`) and the grid classification of a decoded
    image are external collaborators; they are abstracted as an oracle
    `decode` from an image source to the face's raw nine classified
    symbols, `none` when the source cannot be decoded. -/

/-- The errors `solve_cube_from_images` can propagate: a Python `KeyError`
from the missing dict lookup `image_paths[face]`, or a `ValueError` with
its message. -/
inductive SolveError : Type where
  | keyError (face : Char)
  | valueError (msg : List Char)
deriving DecidableEq

/-- `face_order` (solver.py 41). -/
def faceOrder : List Char := ['U', 'R', 'F', 'D', 'L', 'B']

/-- The `ValueError` message of color_recognition.py line 16. -/
def loadErrorMsg (path : List Char) : List Char :=
  ("Could not load image: ".toList) ++ path

/-- `recognize_face_colors` (color_recognition.py 13-83) at its interface:
an undecodable source raises `ValueError("Could not load image: {path}")`
(line 14-16); otherwise the nine raw classified symbols go through
`fix_color_distribution` (line 81). -/
def recognize_face_colors (decode : List Char → Option (List Char))
    (path : List Char) (label : Char) : Except (List Char) (List Char) :=
  match decode path with
  | none => Except.error (loadErrorMsg path)
  | some raw => Except.ok (fix_color_distribution raw)

/-- The face loop of `solve_cube_from_images` (solver.py 43-45): for each
face in order, look up its source (`image_paths[face]`, a `KeyError` when
missing) and classify it; the first component records the faces for which
`recognize_face_colors` was invoked. -/
def assembleFaces (decode : List Char → Option (List Char))
    (paths : Char → Option (List Char)) :
    List Char → List Char × Except SolveError (List Char)
  | [] => ([], Except.ok [])
  | f :: fs =>
    match paths f with
    | none => ([], Except.error (SolveError.keyError f))
    | some p =>
      match recognize_face_colors decode p f with
      | Except.error m => ([f], Except.error (SolveError.valueError m))
      | Except.ok colors =>
        let q := assembleFaces decode paths fs
        (f :: q.1, q.2.map (fun rest => colors ++ rest))

/-- `solve_cube_from_images` (solver.py 38-53): assemble the six faces in
order, then validate and fix the concatenated state. -/
def solve_cube_from_images (decode : List Char → Option (List Char))
    (paths : Char → Option (List Char)) :
    List Char × Except SolveError (List Char) :=
  let q := assembleFaces decode paths faceOrder
  (q.1,
   match q.2 with
   | Except.error e => Except.error e
   | Except.ok s =>
     match validate_and_fix_cube_state s with
     | Except.error m => Except.error (SolveError.valueError m)
     | Except.ok out => Except.ok out)

/-- Test fixture: every source decodes to a face of nine `U`. -/
def decodeAll9U : List Char → Option (List Char) :=
  fun _ => some (List.replicate 9 'U')

/-- Test fixture: a mapping supplying every face except `B`. -/
def pathsMissingB : Char → Option (List Char) :=
  fun f => if f = 'B' then none else some ['x']

/-- C9 counterexample: with only the face `B` missing, the call does fail
with an error naming `B`, but classification HAS been performed for the
five earlier faces — not "for no face" as the claim states. -/
theorem solve_missing_face_counterexample :
    (solve_cube_from_images decodeAll9U pathsMissingB).2
      = Except.error (SolveError.keyError 'B') ∧
    (solve_cube_from_images decodeAll9U pathsMissingB).1 = ['U', 'R', 'F', 'D', 'L'] ∧
    (solve_cube_from_images decodeAll9U pathsMissingB).1 ≠ [] := by
  refine ⟨rfl, rfl, ?_⟩
  decide

theorem assembleFaces_missing (decode : List Char → Option (List Char))
    (paths : Char → Option (List Char)) (hdec : ∀ p, (decode p).isSome = true) :
    ∀ (l : List Char) (f₀ : Char),
      l.find? (fun f => (paths f).isNone) = some f₀ →
      (assembleFaces decode paths l).2 = Except.error (SolveError.keyError f₀) ∧
      (assembleFaces decode paths l).1 = l.takeWhile (fun f => (paths f).isSome) := by
  intro l
  induction l with
  | nil => intro f₀ h; simp at h
  | cons f fs ih =>
    intro f₀ h
    rcases hp : paths f with _ | p
    · have hf0 : f₀ = f := by
        rw [List.find?_cons_of_pos _ (by simp [hp])] at h
        exact (Option.some_inj.mp h).symm
      have hstep2 : (assembleFaces decode paths (f :: fs)).2
          = Except.error (SolveError.keyError f) := by
        simp only [assembleFaces, hp]
      have hstep1 : (assembleFaces decode paths (f :: fs)).1 = [] := by
        simp only [assembleFaces, hp]
      constructor
      · rw [hstep2, hf0]
      · rw [hstep1, List.takeWhile_cons_of_neg (by simp [hp])]
    · rw [List.find?_cons_of_neg _ (by simp [hp])] at h
      rcases hd : decode p with _ | raw
      · exfalso
        have := hdec p
        rw [hd] at this
        simp at this
      · have hrec : recognize_face_colors decode p f
            = Except.ok (fix_color_distribution raw) := by
          rw [recognize_face_colors, hd]
        obtain ⟨ih2, ih1⟩ := ih f₀ h
        have hstep2 : (assembleFaces decode paths (f :: fs)).2
            = (assembleFaces decode paths fs).2.map
              (fun rest => fix_color_distribution raw ++ rest) := by
          simp only [assembleFaces, hp, hrec]
        have hstep1 : (assembleFaces decode paths (f :: fs)).1
            = f :: (assembleFaces decode paths fs).1 := by
          simp only [assembleFaces, hp, hrec]
        constructor
        · rw [hstep2, ih2]; rfl
        · rw [hstep1, ih1, List.takeWhile_cons_of_pos (by simp [hp])]

/-- C9 amended: when some face label is missing from the input mapping (and
every supplied source is decodable), `solve_cube_from_images` fails with a
`KeyError` naming the FIRST missing face of the fixed order, no cube state
is produced, and classification is performed exactly for the faces
strictly before that first missing face — faces already encountered ARE
classified before the failure. -/
theorem solve_missing_face (decode : List Char → Option (List Char))
    (paths : Char → Option (List Char)) (f₀ : Char)
    (hdec : ∀ p, (decode p).isSome = true)
    (hfind : faceOrder.find? (fun f => (paths f).isNone) = some f₀) :
    (solve_cube_from_images decode paths).2 = Except.error (SolveError.keyError f₀) ∧
    (solve_cube_from_images decode paths).1
      = faceOrder.takeWhile (fun f => (paths f).isSome) := by
  obtain ⟨h2, h1⟩ := assembleFaces_missing decode paths hdec faceOrder f₀ hfind
  constructor
  · simp only [solve_cube_from_images, h2]
  · simp only [solve_cube_from_images, h1]

theorem solve_missing_face_witness :
    (solve_cube_from_images decodeAll9U pathsMissingB).2
      = Except.error (SolveError.keyError 'B') ∧
    (solve_cube_from_images decodeAll9U pathsMissingB).1
      = faceOrder.takeWhile (fun f => (pathsMissingB f).isSome) :=
  solve_missing_face decodeAll9U pathsMissingB 'B' (fun _ => rfl) (by decide)

/-- C10 counterexample: an undecodable source makes
`recognize_face_colors` raise an error whose message names the image
source, not the face label: for face `U` and path `x.png` the message does
not mention `U` at all. -/
theorem recognize_error_names_path_counterexample :
    recognize_face_colors (fun _ => none) ("x.png".toList) 'U'
      = Except.error (loadErrorMsg ("x.png".toList)) ∧
    'U' ∉ loadErrorMsg ("x.png".toList) := by
  refine ⟨rfl, ?_⟩
  decide

theorem assembleFaces_undecodable (decode : List Char → Option (List Char))
    (paths : Char → Option (List Char)) :
    ∀ l : List Char,
      (∀ f ∈ l, (paths f).isSome = true) →
      (∃ f ∈ l, ∃ p, paths f = some p ∧ decode p = none) →
      ∃ f p, f ∈ l ∧ paths f = some p ∧ decode p = none ∧
        (assembleFaces decode paths l).2
          = Except.error (SolveError.valueError (loadErrorMsg p)) := by
  intro l
  induction l with
  | nil =>
    intro _ hfail
    obtain ⟨f, hf, _⟩ := hfail
    cases hf
  | cons f fs ih =>
    intro hall hfail
    rcases hp : paths f with _ | p
    · exfalso
      have := hall f (by simp)
      rw [hp] at this
      simp at this
    · rcases hd : decode p with _ | raw
      · refine ⟨f, p, by simp, hp, hd, ?_⟩
        have hrec : recognize_face_colors decode p f
            = Except.error (loadErrorMsg p) := by
          rw [recognize_face_colors, hd]
        simp only [assembleFaces, hp, hrec]
      · have hfail' : ∃ g ∈ fs, ∃ p', paths g = some p' ∧ decode p' = none := by
          obtain ⟨g, hg, p', hp', hd'⟩ := hfail
          rcases List.mem_cons.mp hg with h1 | h1
          · exfalso
            rw [h1, hp] at hp'
            rw [Option.some_inj.mp hp'] at hd
            rw [hd] at hd'
            cases hd'
          · exact ⟨g, h1, p', hp', hd'⟩
        obtain ⟨g, p', hg, hp', hd', herr⟩ := ih (fun x hx => hall x (by simp [hx])) hfail'
        refine ⟨g, p', by simp [hg], hp', hd', ?_⟩
        have hrec : recognize_face_colors decode p f
            = Except.ok (fix_color_distribution raw) := by
          rw [recognize_face_colors, hd]
        have hstep : (assembleFaces decode paths (f :: fs)).2
            = (assembleFaces decode paths fs).2.map
              (fun rest => fix_color_distribution raw ++ rest) := by
          simp only [assembleFaces, hp, hrec]
        rw [hstep, herr]
        rfl

/-- C10 amended: when every face is supplied but some source cannot be
decoded, the whole classification aborts with the `ValueError` of the
first such face, whose message identifies the offending IMAGE SOURCE (the
path is a suffix of the message) — not the face label — and no (partial)
cube state is returned to the caller. -/
theorem solve_undecodable_aborts (decode : List Char → Option (List Char))
    (paths : Char → Option (List Char))
    (hall : ∀ f ∈ faceOrder, (paths f).isSome = true)
    (hfail : ∃ f ∈ faceOrder, ∃ p, paths f = some p ∧ decode p = none) :
    ∃ f p, f ∈ faceOrder ∧ paths f = some p ∧ decode p = none ∧
      (solve_cube_from_images decode paths).2
        = Except.error (SolveError.valueError (loadErrorMsg p)) ∧
      p <:+ loadErrorMsg p := by
  obtain ⟨f, p, hf, hp, hd, herr⟩ := assembleFaces_undecodable decode paths faceOrder hall hfail
  refine ⟨f, p, hf, hp, hd, ?_, List.suffix_append _ _⟩
  simp only [solve_cube_from_images, herr]

theorem solve_undecodable_aborts_witness :
    ∃ f p, f ∈ faceOrder ∧ (fun f => some [f]) f = some p ∧
      (fun _ => (none : Option (List Char))) p = none ∧
      (solve_cube_from_images (fun _ => none) (fun f => some [f])).2
        = Except.error (SolveError.valueError (loadErrorMsg p)) ∧
      p <:+ loadErrorMsg p :=
  solve_undecodable_aborts (fun _ => none) (fun f => some [f])
    (fun _ _ => rfl) ⟨'U', by decide, ['U'], rfl, rfl⟩

end RubiksBackend
